import Mathlib

/- Shallow embedding of the wslsync repository: `config.py`, `sync.py`
and `utils.py`.  Absolute paths are modelled as lists of components,
each component the list of its characters; the filesystem is an explicit
record of regular files, directories and unreadable directories, and
every engine method is a pure function threading that state. -/

/-- A path component: the characters between two slashes. -/
abbrev Comp := List Char

/-- An absolute filesystem path, as its list of components. -/
abbrev PathT := List Comp

/-- Split a character list at every slash, as Python's `PurePath`
constructor splits a path string. -/
def splitSlash : List Char → List Comp
  | [] => [[]]
  | c :: rest =>
    let r := splitSlash rest
    if c = '/' then [] :: r
    else (c :: r.headI) :: r.tail

/-- Join components with slash separators, as `str()` renders a relative
`PurePath`. -/
def joinSlash : List Comp → List Char
  | [] => []
  | [c] => c
  | c :: rest => c ++ '/' :: joinSlash rest

/-- Components of a path string: split on slashes, dropping the empty
and single-dot components, exactly as Python's `PurePath` does. -/
def pathComps (s : String) : PathT :=
  (splitSlash s.toList).filter (fun c => !(c == [] || c == ['.']))

/-- Render an absolute path for error messages. -/
def pathStr (p : PathT) : String :=
  String.mk ('/' :: joinSlash p)

/-- The while loop of `utils.format_file_size`: divide by 1024 while the
value is at least 1024 and further units remain.  The float value
`size_bytes / 1024 ** idx` is represented exactly by the original
integer together with `pow = 1024 ** idx`. -/
def fmtLoop (n : Int) : Int → Nat → Nat → Int × Nat
  | pow, idx, 0 => (pow, idx)
  | pow, idx, fuel + 1 =>
    if 1024 * pow ≤ n ∧ idx < 4 then fmtLoop n (1024 * pow) (idx + 1) fuel
    else (pow, idx)

/-- Model of `utils.format_file_size`.  Python's float arithmetic is
modelled by exact arithmetic on `size_bytes / 1024 ** k`, which agrees
with the doubles wherever they are exact (in particular on all inputs
the claims mention); the one-decimal f-string is modelled as rounding
half up. -/
def format_file_size (size_bytes : Int) : String :=
  if size_bytes < 0 then "0 B"
  else if size_bytes = 0 then "0 B"
  else
    let units := ["B", "KB", "MB", "GB", "TB"]
    let r := fmtLoop size_bytes 1 0 4
    if r.2 = 0 then toString size_bytes ++ " B"
    else
      let d := (20 * size_bytes + r.1) / (2 * r.1)
      toString (d / 10) ++ "." ++ toString (d % 10) ++ " " ++ units.getD r.2 "B"

/-- A Python `pathlib.Path` value: absolute flag and components. -/
structure PyPath where
  absFlag : Bool
  comps : PathT
deriving DecidableEq

/-- One step of `.`/`..` elimination. -/
def resolveStep (acc : PathT) (c : Comp) : PathT :=
  if c = ['.'] then acc
  else if c = ['.', '.'] then acc.dropLast
  else acc ++ [c]

/-- Model of `Path.resolve()` on an absolute component list, with no
symbolic links: eliminate `.` and `..` components left to right. -/
def resolveComps (p : PathT) : PathT :=
  p.foldl resolveStep []

/-- Model of `utils.is_path_safe`.  The base directory is given by its
absolute components; `relative_to` succeeds exactly when the resolved
base is a component prefix of the resolved path, and a relative path is
joined onto the base before resolving, as in the source. -/
def is_path_safe (path : PyPath) (base : PathT) : Bool :=
  let rb := resolveComps base
  if !path.absFlag then rb.isPrefixOf (resolveComps (base ++ path.comps))
  else rb.isPrefixOf (resolveComps path.comps)

/-- Model of `config.WSLSyncConfig`: the roots hold the rendered string
of the stored `Path` (`none` when unset), entries are the raw strings
from the configuration file. -/
structure WSLSyncConfig where
  windows_base : Option String := none
  wsl2_base : Option String := none
  files : List String := []
deriving DecidableEq

/-- Python `str.strip()` on the underlying characters. -/
def stripChars (l : List Char) : List Char :=
  ((l.dropWhile Char.isWhitespace).reverse.dropWhile Char.isWhitespace).reverse

/-- A root string `validate_config` rejects as an empty path:
whitespace-only, or the lone dot that `Path("")` normalizes to. -/
def emptyPathStr (s : String) : Bool :=
  stripChars s.toList == [] || s == "."

/-- Model of `config.validate_config`. -/
def validate_config (config : WSLSyncConfig) : Except String Bool :=
  match config.windows_base, config.wsl2_base with
  | none, _ => .error "windows_base is required"
  | _, none => .error "wsl2_base is required"
  | some wb, some db =>
    if config.files = [] then .error "files list cannot be empty"
    else if emptyPathStr wb then
      .error "Invalid path format: windows_base path cannot be empty"
    else if emptyPathStr db then
      .error "Invalid path format: wsl2_base path cannot be empty"
    else if config.files.Nodup then .ok true
    else .error "Duplicate files found in configuration"

/-- The exception classes raised by the engine. -/
inductive SyncError where
  | valueError (msg : String)
  | notFound (msg : String)
  | permission (msg : String)
  | osError (msg : String)
deriving DecidableEq

/-- Model of `sync.WSLSyncEngine`: it stores only the configuration. -/
structure WSLSyncEngine where
  config : WSLSyncConfig
deriving DecidableEq

/-- Model of `WSLSyncEngine.__init__`: a missing configuration is
rejected before any operation, any other configuration is stored
unchanged. -/
def mkEngine (config : Option WSLSyncConfig) : Except SyncError WSLSyncEngine :=
  match config with
  | none => .error (.valueError "Config cannot be None")
  | some c => .ok ⟨c⟩

/-- Filesystem state: the regular files and the directories, by
absolute path, plus the directories whose listing is denied. -/
structure FS where
  files : List PathT
  dirs : List PathT
  unreadable : List PathT
deriving DecidableEq

/-- Model of `Path.exists`. -/
def pathExists (fs : FS) (p : PathT) : Bool :=
  fs.files.contains p || fs.dirs.contains p

/-- `p` lies strictly below `b`. -/
def underB (b p : PathT) : Bool :=
  b.isPrefixOf p && !(b == p)

/-- The nonempty prefixes of a path: the directory chain that
`mkdir(parents=True)` has to provide. -/
def prefixesOf (q : PathT) : List PathT :=
  (List.range q.length).map (fun i => q.take (i + 1))

/-- Model of `shutil.rmtree`: drop the path and everything below it. -/
def removeSubtree (fs : FS) (dest : PathT) : FS :=
  { fs with
    files := fs.files.filter (fun p => !dest.isPrefixOf p)
    dirs := fs.dirs.filter (fun p => !dest.isPrefixOf p) }

/-- Model of `shutil.copytree src dest`: `os.makedirs` provides `dest`
and its ancestors, then the subtree below `src` is mirrored below
`dest`.  The `chmod 0o755` normalization does not change the file and
directory sets and is dropped. -/
def copytreeFS (fs : FS) (src dest : PathT) : FS :=
  let newDirs := prefixesOf dest ++
    (fs.dirs.filter (fun q => underB src q)).map (fun q => dest ++ q.drop src.length)
  let newFiles :=
    (fs.files.filter (fun q => underB src q)).map (fun q => dest ++ q.drop src.length)
  { fs with
    dirs := fs.dirs ++ newDirs.filter (fun q => !fs.dirs.contains q)
    files := fs.files ++ newFiles.filter (fun q => !fs.files.contains q) }

/-- Model of `WSLSyncEngine.create_directory_structure`: create every
missing ancestor directory of the target file, failing with an OS error
when an ancestor exists as a regular file; the best-effort `chmod` walk
(whose failures the source swallows) is dropped. -/
def create_directory_structure (fs : FS) (file_path : PathT) : Except SyncError FS :=
  let parent := file_path.dropLast
  if (prefixesOf parent).any (fun q => fs.files.contains q) then
    .error (.osError ("Failed to create directory: " ++ pathStr parent))
  else
    .ok { fs with dirs := fs.dirs ++ (prefixesOf parent).filter (fun q => !fs.dirs.contains q) }

/-- One iteration of the `copy_files` loop.  A file entry gets its
ancestor chain created and is copied with `shutil.copy2`: when the
destination is an existing directory, `copy2` copies the file *into*
that directory under the source's basename and the loop still records
the original destination path; it fails only when the path it would
write is itself a directory.  A directory entry first removes an
existing target subtree (`rmtree`, failing when the target is a
regular file), then mirrors the source subtree and records every
regular file found below the freshly copied destination subtree.  On
success it returns the new state and the destination paths recorded
for this entry. -/
def copyEntry (win w : PathT) (fs : FS) (e : String) :
    Except SyncError (FS × List PathT) :=
  let src := win ++ pathComps e
  let dest := w ++ pathComps e
  if !pathExists fs src then
    .error (.notFound ("Source path not found: " ++ pathStr src))
  else if fs.files.contains src then
    match create_directory_structure fs dest with
    | .error er => .error er
    | .ok fs₁ =>
      if fs₁.dirs.contains dest then
        if fs₁.dirs.contains (dest ++ [src.getLast?.getD []]) then
          .error (.osError ("Failed to copy " ++ pathStr src ++ " to " ++ pathStr dest))
        else
          .ok ({ fs₁ with
            files := if fs₁.files.contains (dest ++ [src.getLast?.getD []]) then fs₁.files
              else (dest ++ [src.getLast?.getD []]) :: fs₁.files },
            [dest])
      else
        .ok ({ fs₁ with
          files := if fs₁.files.contains dest then fs₁.files else dest :: fs₁.files },
          [dest])
  else
    if fs.files.contains dest then
      .error (.osError ("Failed to copy directory " ++ pathStr src ++ " to " ++ pathStr dest))
    else
      let fs₁ := if fs.dirs.contains dest then removeSubtree fs dest else fs
      if (prefixesOf dest.dropLast).any (fun q => fs₁.files.contains q) then
        .error (.osError ("Failed to copy directory " ++ pathStr src ++ " to " ++ pathStr dest))
      else
        let fs₂ := copytreeFS fs₁ src dest
        .ok (fs₂, fs₂.files.filter (fun p => underB dest p))

/-- The loop of `WSLSyncEngine.copy_files`: process the configured
entries in order, threading the filesystem and the list of destination
paths written so far.  On an exception the state reached before the
failing entry is returned with the error; for the not-found case,
faithfully to the source, the failing entry has performed no mutation
at all. -/
def copyGo (win w : PathT) (fs : FS) (acc : List PathT) :
    List String → FS × Except SyncError (List PathT)
  | [] => (fs, .ok acc)
  | e :: rest =>
    match copyEntry win w fs e with
    | .error er => (fs, .error er)
    | .ok (fs2, recs) => copyGo win w fs2 (acc ++ recs) rest

/-- Model of `WSLSyncEngine.copy_files`. -/
def copy_files (config : WSLSyncConfig) (fs : FS) : FS × Except SyncError (List PathT) :=
  match config.windows_base, config.wsl2_base with
  | some wb, some db => copyGo (pathComps wb) (pathComps db) fs [] config.files
  | _, _ => (fs, .error (.valueError "Source and destination paths must be configured"))

/-- Model of `WSLSyncEngine.get_destination_files`. -/
def get_destination_files (config : WSLSyncConfig) (fs : FS) :
    Except SyncError (List PathT) :=
  match config.wsl2_base with
  | none => .error (.valueError "WSL2 base path not configured")
  | some db =>
    let w := pathComps db
    if !pathExists fs w then
      .error (.notFound ("Destination directory not found: " ++ pathStr w))
    else .ok (fs.files.filter (fun p => underB w p))

/-- The string test of `cleanup_destination`, verbatim from the source:
`str(rel_path) == config_path or str(rel_path).startswith(config_path + "/")`. -/
def coveredByEntry (relChars : List Char) (entry : String) : Bool :=
  relChars == entry.toList || (entry.toList ++ ['/']).isPrefixOf relChars

/-- Insert into a list sorted by component count. -/
def insertByLen (d : PathT) : List PathT → List PathT
  | [] => [d]
  | x :: xs => if d.length ≤ x.length then d :: x :: xs else x :: insertByLen d xs

/-- Sort paths so that every directory comes before the directories
below it: the property of the `rglob` snapshot order (parents are
yielded before their children) that the empty-directory pass of
`cleanup_destination` observes. -/
def sortByLen : List PathT → List PathT
  | [] => []
  | x :: xs => insertByLen x (sortByLen xs)

/-- Whether a directory still has an entry (`any(item.iterdir())`). -/
def hasChild (fs : FS) (d : PathT) : Bool :=
  fs.files.any (fun p => !p.isEmpty && p.dropLast == d) ||
  fs.dirs.any (fun p => !p.isEmpty && p.dropLast == d)

/-- The keep test of `cleanup_destination`: the file is in the keep set,
or its relative path is covered by some configured entry string. -/
def shouldKeepB (config : WSLSyncConfig) (w : PathT) (keep_files : List PathT)
    (p : PathT) : Bool :=
  keep_files.contains p ||
  config.files.any (fun e => coveredByEntry (joinSlash (p.drop w.length)) e)

/-- One visit of the empty-directory pass: remove the directory when it
still exists and is empty at visit time (removal failures are swallowed
by the source and cannot occur in the model). -/
def pruneStep (acc : FS) (d : PathT) : FS :=
  if acc.dirs.contains d && !hasChild acc d then
    { acc with dirs := acc.dirs.erase d }
  else acc

/-- Model of `WSLSyncEngine.cleanup_destination`: delete every
destination file that is neither in `keep_files` nor covered by a
configured entry string, then make a single pass over a snapshot of the
destination directories (parents before children, as `rglob` yields
them) removing each directory that is empty when visited. -/
def cleanup_destination (config : WSLSyncConfig) (fs : FS) (keep_files : List PathT) :
    Except SyncError (List PathT × FS) :=
  match config.wsl2_base with
  | none => .error (.valueError "Destination path must be configured")
  | some db =>
    let w := pathComps db
    match get_destination_files config fs with
    | .error er => .error er
    | .ok all_dest_files =>
      let deleted := all_dest_files.filter (fun p => !shouldKeepB config w keep_files p)
      let fs₁ := { fs with files := fs.files.filter (fun p => !deleted.contains p) }
      let snapshot := sortByLen (fs₁.dirs.filter (fun d => underB w d))
      .ok (deleted, snapshot.foldl pruneStep fs₁)

/-- Model of `WSLSyncEngine.validate_paths`.  The method only reads the
filesystem, so no state is returned.  `iterdir` on an unreadable
directory raises `PermissionError` (caught and re-raised as a
permission error); on an existing regular file it raises
`NotADirectoryError`, a plain `OSError` the source does not catch. -/
def validate_paths (config : WSLSyncConfig) (fs : FS) : Except SyncError Bool :=
  match config.windows_base, config.wsl2_base with
  | none, _ => .error (.valueError "Windows base path not configured")
  | _, none => .error (.valueError "WSL2 base path not configured")
  | some wb, some db =>
    let win := pathComps wb
    let w := pathComps db
    if !pathExists fs win then
      .error (.notFound ("Source directory not found: " ++ pathStr win))
    else if !pathExists fs w then
      .error (.notFound ("Destination directory not found: " ++ pathStr w))
    else if fs.files.contains win then
      .error (.osError ("Not a directory: " ++ pathStr win))
    else if fs.unreadable.contains win then
      .error (.permission ("Cannot access source directory: " ++ pathStr win))
    else if fs.files.contains w then
      .error (.osError ("Not a directory: " ++ pathStr w))
    else if fs.unreadable.contains w then
      .error (.permission ("Cannot access destination directory: " ++ pathStr w))
    else .ok true

/-- Model of `WSLSyncEngine.sync`: validate, copy, then clean up with
the copied list as keep set; the state in which a failure leaves the
destination is returned alongside the error, and cleanup never runs
after a copy failure. -/
def sync (config : WSLSyncConfig) (fs : FS) : FS × Except SyncError Unit :=
  match validate_paths config fs with
  | .error er => (fs, .error er)
  | .ok _ =>
    match copy_files config fs with
    | (fs₁, .error er) => (fs₁, .error er)
    | (fs₁, .ok copied_files) =>
      match cleanup_destination config fs₁ copied_files with
      | .error er => (fs₁, .error er)
      | .ok (_, fs₂) => (fs₂, .ok ())

/-- The flattened expansion of the configured entries, following the
specification's words: a file entry contributes its destination image,
a directory entry contributes the destination image of every regular
file below it in the original source tree. -/
def specExpansion (win w : PathT) (fs : FS) (entries : List String) : List PathT :=
  entries.flatMap (fun e =>
    let src := win ++ pathComps e
    if fs.files.contains src then [w ++ pathComps e]
    else (fs.files.filter (fun q => underB src q)).map (fun q => w ++ q.drop win.length))

/-- A component a real file system can hold: nonempty, neither dot
form, and without a slash. -/
@[reducible] def validCompP (c : Comp) : Prop :=
  c ≠ [] ∧ c ≠ ['.'] ∧ c ≠ ['.', '.'] ∧ '/' ∉ c

/-- A nonempty path all of whose components are valid. -/
@[reducible] def validPathP (p : PathT) : Prop :=
  p ≠ [] ∧ ∀ c ∈ p, validCompP c

/-- Well-formedness of a filesystem state: every node has a valid path,
no path is both a file and a directory, and every proper nonempty
prefix of a node is a directory. -/
@[reducible] def FSWF (fs : FS) : Prop :=
  (∀ p ∈ fs.files, validPathP p) ∧
  (∀ p ∈ fs.dirs, validPathP p) ∧
  (∀ p ∈ fs.files, p ∉ fs.dirs) ∧
  (∀ p ∈ fs.files, ∀ q ∈ prefixesOf p.dropLast, q ∈ fs.dirs) ∧
  (∀ p ∈ fs.dirs, ∀ q ∈ prefixesOf p.dropLast, q ∈ fs.dirs)

/-- The two roots are distinct directories, neither below the other. -/
@[reducible] def rootsDisjoint (win w : PathT) : Prop :=
  ¬ win <+: w ∧ ¬ w <+: win

/-- A configured entry that denotes a real relative path below a root:
it has at least one component and every component is valid. -/
@[reducible] def entryValid (e : String) : Prop :=
  pathComps e ≠ [] ∧ ∀ c ∈ pathComps e, validCompP c

/-- What holds of the current state after an entry has been processed
(and keeps holding until the loop ends): a file entry has its
destination image present with nothing below it, a directory entry has
no file at its destination image and the files below it mirror exactly
the files below the source subtree in the original state. -/
@[reducible] def entryDone (win w : PathT) (fs0 cur : FS) (e : String) : Prop :=
  (win ++ pathComps e ∈ fs0.files →
    (w ++ pathComps e ∈ cur.files ∧
     ∀ s : PathT, s ≠ [] → w ++ pathComps e ++ s ∉ cur.files)) ∧
  (win ++ pathComps e ∈ fs0.dirs →
    (w ++ pathComps e ∉ cur.files ∧
     ∀ s : PathT, s ≠ [] →
       (w ++ pathComps e ++ s ∈ cur.files ↔ win ++ pathComps e ++ s ∈ fs0.files)))

/-- The invariant of the `copy_files` loop: the state is well formed,
the source subtree is untouched, every processed entry satisfies
`entryDone`, the recorded paths are exactly the specified expansion
of the processed entries, and every directory the loop created under
the destination root sits at the image of a source path that is not a
regular file in the original state. -/
@[reducible] def copyInv (win w : PathT) (fs0 : FS) (done : List String) (cur : FS)
    (acc : List PathT) : Prop :=
  FSWF cur ∧
  (∀ p : PathT, win <+: p →
    ((p ∈ cur.files ↔ p ∈ fs0.files) ∧ (p ∈ cur.dirs ↔ p ∈ fs0.dirs))) ∧
  (∀ e ∈ done, entryDone win w fs0 cur e) ∧
  (∀ p : PathT, p ∈ acc ↔ p ∈ specExpansion win w fs0 done) ∧
  (∀ p ∈ cur.dirs, p ∉ fs0.dirs → ∀ v : PathT, v ≠ [] → p = w ++ v → win ++ v ∉ fs0.files)

/-- C10: constructing the engine with a missing (`None`) configuration
raises the value error "Config cannot be None" before any operation;
for every non-missing configuration, construction succeeds and stores
the configuration unchanged. -/
theorem engine_init_spec :
    mkEngine none = Except.error (SyncError.valueError "Config cannot be None") ∧
    ∀ c : WSLSyncConfig, mkEngine (some c) = Except.ok ⟨c⟩ :=
  ⟨rfl, fun _ => rfl⟩

/-- C8: `format_file_size 1536 = "1.5 KB"`, `format_file_size 0 = "0 B"`,
`format_file_size (-5) = "0 B"`; every non-negative byte count below
1024 renders as the integer count followed by " B" without a decimal
point, and every negative input yields "0 B". -/
theorem format_file_size_spec :
    format_file_size 1536 = "1.5 KB" ∧
    format_file_size 0 = "0 B" ∧
    format_file_size (-5) = "0 B" ∧
    (∀ n : Int, 0 ≤ n → n < 1024 → format_file_size n = toString n ++ " B") ∧
    (∀ n : Int, n < 0 → format_file_size n = "0 B") := by
  refine ⟨by decide, by decide, by decide, ?_, ?_⟩
  · intro n h0 h1
    by_cases hz : n = 0
    · subst hz; decide
    · have hpos : ¬ n < 0 := by omega
      have hguard : ¬ (1024 * 1 ≤ n ∧ (0 : Nat) < 4) := by
        intro h
        omega
      unfold format_file_size
      rw [if_neg hpos, if_neg hz]
      simp only [fmtLoop, hguard, if_false, if_neg hguard]
      simp
  · intro n hn
    unfold format_file_size
    rw [if_pos hn]

/-- Witness for C8: the general clauses applied at 7 and -3. -/
theorem format_file_size_spec_witness :
    format_file_size 7 = "7 B" ∧ format_file_size (-3) = "0 B" := by
  constructor
  · have h := format_file_size_spec.2.2.2.1 7 (by decide) (by decide)
    exact h.trans (by decide)
  · exact format_file_size_spec.2.2.2.2 (-3) (by decide)

/-- C6 counterexample: a parsed configuration whose `windows_base`
renders as the lone dot "." (the string form of `Path(".")`) is
rejected by `validate_config` although it is set, its string form is
nonempty, the entry list is nonempty and duplicate-free. -/
theorem validate_config_dot_counterexample :
    validate_config { windows_base := some ".", wsl2_base := some "/dst", files := ["a"] }
      = Except.error "Invalid path format: windows_base path cannot be empty" ∧
    (some "." ≠ (none : Option String)) ∧ ("." : String) ≠ "" ∧
    (["a"] : List String) ≠ [] ∧ (["a"] : List String).Nodup := by
  refine ⟨by rfl, by decide, by decide, by decide, by decide⟩

/-- C6 amended: `validate_config` returns true exactly when both roots
are set, neither root's string form strips to the empty string or is
the lone dot ".", the entry list is nonempty and has no duplicate; each
violation raises an error naming the offending field or condition, the
duplicate case with the message "Duplicate files found in
configuration". -/
theorem validate_config_spec (c : WSLSyncConfig) :
    (validate_config c = Except.ok true ↔
      (c.windows_base ≠ none ∧ c.wsl2_base ≠ none ∧ c.files ≠ [] ∧
       (∀ s, c.windows_base = some s → (stripChars s.toList ≠ [] ∧ s ≠ ".")) ∧
       (∀ s, c.wsl2_base = some s → (stripChars s.toList ≠ [] ∧ s ≠ ".")) ∧
       c.files.Nodup)) ∧
    (c.windows_base = none → validate_config c = Except.error "windows_base is required") ∧
    (c.windows_base ≠ none → c.wsl2_base = none →
      validate_config c = Except.error "wsl2_base is required") ∧
    (c.windows_base ≠ none → c.wsl2_base ≠ none → c.files = [] →
      validate_config c = Except.error "files list cannot be empty") ∧
    (∀ wb db, c.windows_base = some wb → c.wsl2_base = some db →
      stripChars wb.toList ≠ [] → wb ≠ "." → stripChars db.toList ≠ [] → db ≠ "." →
      c.files ≠ [] → ¬ c.files.Nodup →
      validate_config c = Except.error "Duplicate files found in configuration") := by
  cases hwb : c.windows_base with
  | none => simp [validate_config, hwb]
  | some wb =>
    cases hdb : c.wsl2_base with
    | none => simp [validate_config, hwb, hdb]
    | some db =>
      have hred : validate_config c =
          (if c.files = [] then Except.error "files list cannot be empty"
           else if emptyPathStr wb then
             Except.error "Invalid path format: windows_base path cannot be empty"
           else if emptyPathStr db then
             Except.error "Invalid path format: wsl2_base path cannot be empty"
           else if c.files.Nodup then Except.ok true
           else Except.error "Duplicate files found in configuration") := by
        unfold validate_config
        rw [hwb, hdb]
      refine ⟨?_, by simp [hwb], by simp [hdb], ?_, ?_⟩
      · rw [hred]
        by_cases hf : c.files = []
        · simp [hf]
        · rw [if_neg hf]
          by_cases he1 : emptyPathStr wb = true
          · rw [if_pos he1]
            have he1R : stripChars wb.toList = [] ∨ wb = "." := by
              simpa [emptyPathStr] using he1
            constructor
            · intro h; cases h
            · rintro ⟨-, -, -, h4, -, -⟩
              have h4w := h4 wb rfl
              rcases he1R with h | h
              · exact absurd h h4w.1
              · exact absurd h h4w.2
          · rw [if_neg he1]
            have he1R : stripChars wb.toList ≠ [] ∧ wb ≠ "." := by
              have h := he1
              simp [emptyPathStr] at h
              exact h
            by_cases he2 : emptyPathStr db = true
            · rw [if_pos he2]
              have he2R : stripChars db.toList = [] ∨ db = "." := by
                simpa [emptyPathStr] using he2
              constructor
              · intro h; cases h
              · rintro ⟨-, -, -, -, h5, -⟩
                have h5w := h5 db rfl
                rcases he2R with h | h
                · exact absurd h h5w.1
                · exact absurd h h5w.2
            · rw [if_neg he2]
              have he2R : stripChars db.toList ≠ [] ∧ db ≠ "." := by
                have h := he2
                simp [emptyPathStr] at h
                exact h
              by_cases hnd : c.files.Nodup
              · rw [if_pos hnd]
                constructor
                · intro _
                  refine ⟨by simp [hwb], by simp [hdb], hf, ?_, ?_, hnd⟩
                  · intro s hs
                    injection hs with h
                    exact h ▸ he1R
                  · intro s hs
                    injection hs with h
                    exact h ▸ he2R
                · intro _; rfl
              · rw [if_neg hnd]
                constructor
                · intro h; cases h
                · rintro ⟨-, -, -, -, -, h6⟩
                  exact absurd h6 hnd
      · intro _ _ hf
        rw [hred, if_pos hf]
      · intro wb2 db2 hwb2 hdb2 hs1 hn1 hs2 hn2 hf2 hdup
        injection hwb2 with hw2
        injection hdb2 with hd2
        subst hw2
        subst hd2
        have he1 : ¬ emptyPathStr wb = true := by
          simp [emptyPathStr]
          exact ⟨hs1, hn1⟩
        have he2 : ¬ emptyPathStr db = true := by
          simp [emptyPathStr]
          exact ⟨hs2, hn2⟩
        rw [hred, if_neg hf2, if_neg he1, if_neg he2, if_neg hdup]

/-- Witness for C6: the amended characterization applied to a valid
configuration and to one with a duplicated entry. -/
theorem validate_config_spec_witness :
    validate_config { windows_base := some "/a", wsl2_base := some "/b", files := ["x", "y"] }
      = Except.ok true ∧
    validate_config { windows_base := some "/a", wsl2_base := some "/b", files := ["x", "x"] }
      = Except.error "Duplicate files found in configuration" := by
  constructor
  · exact (validate_config_spec _).1.mpr
      ⟨by decide, by decide, by decide,
       by intro s hs; cases hs; exact ⟨by decide, by decide⟩,
       by intro s hs; cases hs; exact ⟨by decide, by decide⟩, by decide⟩
  · exact (validate_config_spec _).2.2.2.2 "/a" "/b" rfl rfl
      (by decide) (by decide) (by decide) (by decide) (by decide) (by decide)

/-- `isPrefixOf` on paths agrees with the prefix order. -/
theorem isPrefixOf_iff_pre (l₁ : PathT) : ∀ l₂ : PathT, l₁.isPrefixOf l₂ = true ↔ l₁ <+: l₂ := by
  induction l₁ with
  | nil =>
    intro l₂
    simp [List.isPrefixOf]
  | cons a as ih =>
    intro l₂
    cases l₂ with
    | nil => simp [List.isPrefixOf]
    | cons b bs =>
      simp [List.isPrefixOf, Bool.and_eq_true, beq_iff_eq, ih bs, List.cons_prefix_cons]

/-- Folding the resolver from any accumulator over dot-free components
just appends them. -/
theorem foldl_resolveStep_nonDot (cs : PathT)
    (h : ∀ c ∈ cs, c ≠ ['.'] ∧ c ≠ ['.', '.']) (rb : PathT) :
    cs.foldl resolveStep rb = rb ++ cs := by
  induction cs generalizing rb with
  | nil => simp
  | cons c cs ih =>
    have hc := h c (by simp)
    simp only [List.foldl_cons]
    rw [show resolveStep rb c = rb ++ [c] by simp [resolveStep, hc.1, hc.2]]
    rw [ih (fun x hx => h x (by simp [hx])) (rb ++ [c])]
    simp

/-- Resolution distributes over append. -/
theorem resolveComps_append (l cs : PathT) :
    resolveComps (l ++ cs) = cs.foldl resolveStep (resolveComps l) := by
  unfold resolveComps
  rw [List.foldl_append]

/-- A dot-free path resolves to itself. -/
theorem resolveComps_self (cs : PathT) (h : ∀ c ∈ cs, c ≠ ['.'] ∧ c ≠ ['.', '.']) :
    resolveComps cs = cs := by
  have h0 := foldl_resolveStep_nonDot cs h []
  unfold resolveComps
  simpa using h0

/-- C7 counterexample: against the base directory `/etc`, the relative
path `../../etc/passwd` resolves back inside the base, so
`is_path_safe` returns true, refuting the claim that it is false
against every base. -/
theorem is_path_safe_etc_counterexample :
    is_path_safe ⟨false, [['.', '.'], ['.', '.'], ['e','t','c'], ['p','a','s','s','w','d']]⟩
      [['e','t','c']] = true := by decide

/-- C7 amended: `is_path_safe "../../etc/passwd" base` is false for
every already-resolved base of depth at least two whose final two
components are not `etc/passwd` (for bases such as `/etc` or `/` the
path resolves back inside the base and the result is true);
`is_path_safe "src/file.txt" base` is true for every base, as is the
absolute form `base/"src/file.txt"`; in general the result is true
exactly when the resolved path (a relative path being joined onto the
base first) lies within the resolved base. -/
theorem is_path_safe_spec :
    (∀ base : PathT, (∀ c ∈ base, c ≠ ['.'] ∧ c ≠ ['.', '.']) → 2 ≤ base.length →
      base.drop (base.length - 2) ≠ [['e','t','c'], ['p','a','s','s','w','d']] →
      is_path_safe ⟨false, [['.', '.'], ['.', '.'], ['e','t','c'], ['p','a','s','s','w','d']]⟩
        base = false) ∧
    (∀ base : PathT,
      is_path_safe ⟨false, [['s','r','c'], "file.txt".toList]⟩ base = true) ∧
    (∀ base : PathT,
      is_path_safe ⟨true, base ++ [['s','r','c'], "file.txt".toList]⟩ base = true) ∧
    (∀ (p : PyPath) (base : PathT),
      is_path_safe p base = true ↔
        resolveComps base <+:
          resolveComps (if p.absFlag = true then p.comps else base ++ p.comps)) := by
  refine ⟨?_, ?_, ?_, ?_⟩
  · intro base hnd hlen hlast
    have hself : resolveComps base = base := resolveComps_self base hnd
    have hres : resolveComps
        (base ++ [['.', '.'], ['.', '.'], ['e','t','c'], ['p','a','s','s','w','d']]) =
        base.dropLast.dropLast ++ [['e','t','c'], ['p','a','s','s','w','d']] := by
      rw [resolveComps_append, hself]
      simp only [List.foldl_cons, List.foldl_nil]
      rw [show resolveStep base ['.', '.'] = base.dropLast by simp [resolveStep]]
      rw [show resolveStep base.dropLast ['.', '.'] = base.dropLast.dropLast by
        simp [resolveStep]]
      rw [show resolveStep base.dropLast.dropLast ['e','t','c'] =
          base.dropLast.dropLast ++ [['e','t','c']] by simp [resolveStep]]
      rw [show resolveStep (base.dropLast.dropLast ++ [['e','t','c']])
            ['p','a','s','s','w','d'] =
          base.dropLast.dropLast ++ [['e','t','c'], ['p','a','s','s','w','d']] by
        simp [resolveStep]]
    rw [show is_path_safe
          ⟨false, [['.', '.'], ['.', '.'], ['e','t','c'], ['p','a','s','s','w','d']]⟩ base =
        (resolveComps base).isPrefixOf (resolveComps
          (base ++ [['.', '.'], ['.', '.'], ['e','t','c'], ['p','a','s','s','w','d']]))
        from rfl]
    rw [hres, hself]
    by_contra hcon
    rw [Bool.not_eq_false, isPrefixOf_iff_pre] at hcon
    have hdll : base.dropLast.dropLast.length = base.length - 2 := by
      simp only [List.length_dropLast]
      omega
    have hlen2 : (base.dropLast.dropLast ++
        [['e','t','c'], ['p','a','s','s','w','d']]).length = base.length := by
      simp only [List.length_append, hdll, List.length_cons, List.length_nil]
      omega
    have heq := hcon.eq_of_length (by rw [hlen2])
    apply hlast
    have hdrop := congrArg (fun l => List.drop (base.length - 2) l) heq
    simp only at hdrop
    rw [hdrop]
    rw [show base.length - 2 = base.dropLast.dropLast.length by rw [hdll]]
    exact List.drop_left _ _
  · intro base
    have hres : resolveComps (base ++ [['s','r','c'], "file.txt".toList]) =
        resolveComps base ++ [['s','r','c'], "file.txt".toList] := by
      rw [resolveComps_append]
      exact foldl_resolveStep_nonDot _ (by decide) _
    rw [show is_path_safe ⟨false, [['s','r','c'], "file.txt".toList]⟩ base =
        (resolveComps base).isPrefixOf
          (resolveComps (base ++ [['s','r','c'], "file.txt".toList])) from rfl]
    rw [hres, isPrefixOf_iff_pre]
    exact List.prefix_append _ _
  · intro base
    have hres : resolveComps (base ++ [['s','r','c'], "file.txt".toList]) =
        resolveComps base ++ [['s','r','c'], "file.txt".toList] := by
      rw [resolveComps_append]
      exact foldl_resolveStep_nonDot _ (by decide) _
    rw [show is_path_safe ⟨true, base ++ [['s','r','c'], "file.txt".toList]⟩ base =
        (resolveComps base).isPrefixOf
          (resolveComps (base ++ [['s','r','c'], "file.txt".toList])) from rfl]
    rw [hres, isPrefixOf_iff_pre]
    exact List.prefix_append _ _
  · intro p base
    obtain ⟨ab, cs⟩ := p
    cases ab with
    | false =>
      rw [show is_path_safe ⟨false, cs⟩ base =
          (resolveComps base).isPrefixOf (resolveComps (base ++ cs)) from rfl]
      rw [if_neg (by simp)]
      exact isPrefixOf_iff_pre _ _
    | true =>
      rw [show is_path_safe ⟨true, cs⟩ base =
          (resolveComps base).isPrefixOf (resolveComps cs) from rfl]
      rw [if_pos rfl]
      exact isPrefixOf_iff_pre _ _

/-- Witness for C7: the amended clauses applied at the concrete base
`/home/user`. -/
theorem is_path_safe_spec_witness :
    is_path_safe ⟨false, [['.', '.'], ['.', '.'], ['e','t','c'], ['p','a','s','s','w','d']]⟩
      ["home".toList, "user".toList] = false ∧
    is_path_safe ⟨false, [['s','r','c'], "file.txt".toList]⟩
      ["home".toList, "user".toList] = true := by
  constructor
  · exact is_path_safe_spec.1 ["home".toList, "user".toList] (by decide) (by decide)
      (by decide)
  · exact is_path_safe_spec.2.1 ["home".toList, "user".toList]

/-- Membership form of the boolean `contains` test. -/
theorem contains_iff_mem (l : List PathT) (p : PathT) : l.contains p = true ↔ p ∈ l := by
  simp [List.contains, List.elem_iff]

/-- C5 counterexample: when the source root exists but is a regular
file, `iterdir` raises `NotADirectoryError`, which the source does not
catch as a permission error: `validate_paths` surfaces a plain OS
error, not the permission error the claim requires for a root that
exists but cannot be enumerated. -/
theorem validate_paths_file_root_counterexample :
    validate_paths { windows_base := some "/w", wsl2_base := some "/d", files := ["x"] }
        { files := [[['w']]], dirs := [[['d']]], unreadable := [] }
      = Except.error (SyncError.osError "Not a directory: /w") ∧
    pathExists { files := [[['w']]], dirs := [[['d']]], unreadable := [] }
      (pathComps "/w") = true ∧
    ∀ msg, validate_paths { windows_base := some "/w", wsl2_base := some "/d", files := ["x"] }
        { files := [[['w']]], dirs := [[['d']]], unreadable := [] }
      ≠ Except.error (SyncError.permission msg) := by
  refine ⟨by rfl, by rfl, ?_⟩
  intro msg h
  rw [show validate_paths { windows_base := some "/w", wsl2_base := some "/d", files := ["x"] }
        { files := [[['w']]], dirs := [[['d']]], unreadable := [] }
      = Except.error (SyncError.osError "Not a directory: /w") from rfl] at h
  injection h with h2
  cases h2

/-- C5 amended: `validate_paths` succeeds (returning true) exactly when
both roots are set, exist, and are readable directories; an unset root
raises a configuration (value) error, a set but missing root raises a
not-found error, a root that is a readable-path-wise denied directory
raises a permission error, and a root that exists as a regular file
raises a plain OS error (`NotADirectoryError`), not a permission
error.  The method performs no filesystem mutation, as its model's type
shows. -/
theorem validate_paths_spec (c : WSLSyncConfig) (fs : FS) :
    (validate_paths c fs = Except.ok true ↔
      (∃ wb db, c.windows_base = some wb ∧ c.wsl2_base = some db ∧
        pathExists fs (pathComps wb) = true ∧ pathExists fs (pathComps db) = true ∧
        pathComps wb ∉ fs.files ∧ pathComps db ∉ fs.files ∧
        pathComps wb ∉ fs.unreadable ∧ pathComps db ∉ fs.unreadable)) ∧
    ((c.windows_base = none ∨ c.wsl2_base = none) →
      ∃ m, validate_paths c fs = Except.error (SyncError.valueError m)) ∧
    (∀ wb db, c.windows_base = some wb → c.wsl2_base = some db →
      (pathExists fs (pathComps wb) = false ∨ pathExists fs (pathComps db) = false) →
      ∃ m, validate_paths c fs = Except.error (SyncError.notFound m)) ∧
    (∀ wb db, c.windows_base = some wb → c.wsl2_base = some db →
      pathExists fs (pathComps wb) = true → pathExists fs (pathComps db) = true →
      pathComps wb ∉ fs.files → pathComps db ∉ fs.files →
      (pathComps wb ∈ fs.unreadable ∨ pathComps db ∈ fs.unreadable) →
      ∃ m, validate_paths c fs = Except.error (SyncError.permission m)) ∧
    (∀ wb db, c.windows_base = some wb → c.wsl2_base = some db →
      pathExists fs (pathComps wb) = true → pathExists fs (pathComps db) = true →
      pathComps wb ∈ fs.files →
      ∃ m, validate_paths c fs = Except.error (SyncError.osError m)) := by
  cases hwb : c.windows_base with
  | none =>
    refine ⟨?_, ?_, ?_, ?_, ?_⟩
    · simp [validate_paths, hwb]
    · intro _
      exact ⟨"Windows base path not configured", by simp [validate_paths, hwb]⟩
    · intro wb db h1 h2 _
      cases h1
    · intro wb db h1 h2 _ _ _ _ _
      cases h1
    · intro wb db h1 h2 _ _ _
      cases h1
  | some wb =>
    cases hdb : c.wsl2_base with
    | none =>
      refine ⟨?_, ?_, ?_, ?_, ?_⟩
      · simp only [validate_paths, hwb, hdb]
        constructor
        · intro h
          cases h
        · rintro ⟨wb2, db2, -, h2, -⟩
          cases h2
      · intro _
        exact ⟨"WSL2 base path not configured", by simp [validate_paths, hwb, hdb]⟩
      · intro wb2 db2 h1 h2 _
        cases h2
      · intro wb2 db2 h1 h2 _ _ _ _ _
        cases h2
      · intro wb2 db2 h1 h2 _ _ _
        cases h2
    | some db =>
      have hred : validate_paths c fs =
          (if !pathExists fs (pathComps wb) then
            Except.error (.notFound ("Source directory not found: " ++ pathStr (pathComps wb)))
          else if !pathExists fs (pathComps db) then
            Except.error (.notFound
              ("Destination directory not found: " ++ pathStr (pathComps db)))
          else if fs.files.contains (pathComps wb) then
            Except.error (.osError ("Not a directory: " ++ pathStr (pathComps wb)))
          else if fs.unreadable.contains (pathComps wb) then
            Except.error (.permission
              ("Cannot access source directory: " ++ pathStr (pathComps wb)))
          else if fs.files.contains (pathComps db) then
            Except.error (.osError ("Not a directory: " ++ pathStr (pathComps db)))
          else if fs.unreadable.contains (pathComps db) then
            Except.error (.permission
              ("Cannot access destination directory: " ++ pathStr (pathComps db)))
          else Except.ok true) := by
        unfold validate_paths
        rw [hwb, hdb]
      refine ⟨?_, ?_, ?_, ?_, ?_⟩
      · rw [hred]
        by_cases e1 : pathExists fs (pathComps wb) = true
        · rw [if_neg (by simp [e1])]
          by_cases e2 : pathExists fs (pathComps db) = true
          · rw [if_neg (by simp [e2])]
            by_cases f1 : pathComps wb ∈ fs.files
            · rw [if_pos ((contains_iff_mem _ _).mpr f1)]
              constructor
              · intro h
                cases h
              · rintro ⟨wb2, db2, hw2, hd2, -, -, hnf, -⟩
                injection hw2 with hw2e
                exact absurd (hw2e ▸ f1) hnf
            · rw [if_neg (fun hcc => f1 ((contains_iff_mem _ _).mp hcc))]
              by_cases u1 : pathComps wb ∈ fs.unreadable
              · rw [if_pos ((contains_iff_mem _ _).mpr u1)]
                constructor
                · intro h
                  cases h
                · rintro ⟨wb2, db2, hw2, hd2, -, -, -, -, hnu, -⟩
                  injection hw2 with hw2e
                  exact absurd (hw2e ▸ u1) hnu
              · rw [if_neg (fun hcc => u1 ((contains_iff_mem _ _).mp hcc))]
                by_cases f2 : pathComps db ∈ fs.files
                · rw [if_pos ((contains_iff_mem _ _).mpr f2)]
                  constructor
                  · intro h
                    cases h
                  · rintro ⟨wb2, db2, hw2, hd2, -, -, -, hnf, -⟩
                    injection hd2 with hd2e
                    exact absurd (hd2e ▸ f2) hnf
                · rw [if_neg (fun hcc => f2 ((contains_iff_mem _ _).mp hcc))]
                  by_cases u2 : pathComps db ∈ fs.unreadable
                  · rw [if_pos ((contains_iff_mem _ _).mpr u2)]
                    constructor
                    · intro h
                      cases h
                    · rintro ⟨wb2, db2, hw2, hd2, -, -, -, -, -, hnu⟩
                      injection hd2 with hd2e
                      exact absurd (hd2e ▸ u2) hnu
                  · rw [if_neg (fun hcc => u2 ((contains_iff_mem _ _).mp hcc))]
                    constructor
                    · intro _
                      exact ⟨wb, db, rfl, rfl, e1, e2, f1, f2, u1, u2⟩
                    · intro _
                      rfl
          · rw [Bool.not_eq_true] at e2
            rw [if_pos (by simp [e2])]
            constructor
            · intro h
              cases h
            · rintro ⟨wb2, db2, hw2, hd2, -, he2, -⟩
              injection hd2 with hd2e
              rw [hd2e] at e2
              rw [he2] at e2
              cases e2
        · rw [Bool.not_eq_true] at e1
          rw [if_pos (by simp [e1])]
          constructor
          · intro h
            cases h
          · rintro ⟨wb2, db2, hw2, hd2, he1, -⟩
            injection hw2 with hw2e
            rw [hw2e] at e1
            rw [he1] at e1
            cases e1
      · rintro (h | h)
        · cases h
        · cases h
      · intro wb2 db2 hw2 hd2 hor
        injection hw2 with hw2e
        injection hd2 with hd2e
        obtain rfl : wb2 = wb := hw2e.symm
        obtain rfl : db2 = db := hd2e.symm
        rw [hred]
        rcases hor with h | h
        · exact ⟨_, by rw [if_pos (by simp [h])]⟩
        · by_cases e1 : pathExists fs (pathComps wb2) = true
          · exact ⟨_, by rw [if_neg (by simp [e1]), if_pos (by simp [h])]⟩
          · rw [Bool.not_eq_true] at e1
            exact ⟨_, by rw [if_pos (by simp [e1])]⟩
      · intro wb2 db2 hw2 hd2 e1 e2 f1 f2 hor
        injection hw2 with hw2e
        injection hd2 with hd2e
        obtain rfl : wb2 = wb := hw2e.symm
        obtain rfl : db2 = db := hd2e.symm
        rw [hred, if_neg (by simp [e1]), if_neg (by simp [e2]),
          if_neg (fun hcc => f1 ((contains_iff_mem _ _).mp hcc))]
        rcases hor with h | h
        · exact ⟨_, by rw [if_pos ((contains_iff_mem _ _).mpr h)]⟩
        · by_cases u1 : pathComps wb2 ∈ fs.unreadable
          · exact ⟨_, by rw [if_pos ((contains_iff_mem _ _).mpr u1)]⟩
          · rw [if_neg (fun hcc => u1 ((contains_iff_mem _ _).mp hcc)),
              if_neg (fun hcc => f2 ((contains_iff_mem _ _).mp hcc))]
            exact ⟨_, by rw [if_pos ((contains_iff_mem _ _).mpr h)]⟩
      · intro wb2 db2 hw2 hd2 e1 e2 f1
        injection hw2 with hw2e
        injection hd2 with hd2e
        obtain rfl : wb2 = wb := hw2e.symm
        obtain rfl : db2 = db := hd2e.symm
        rw [hred, if_neg (by simp [e1]), if_neg (by simp [e2])]
        exact ⟨_, by rw [if_pos ((contains_iff_mem _ _).mpr f1)]⟩

/-- Witness for C5: the amended characterization applied to a concrete
healthy state and to one with an unreadable destination. -/
theorem validate_paths_spec_witness :
    validate_paths { windows_base := some "/s", wsl2_base := some "/d", files := ["x"] }
        { files := [], dirs := [[['s']], [['d']]], unreadable := [] } = Except.ok true ∧
    ∃ m, validate_paths { windows_base := some "/s", wsl2_base := some "/d", files := ["x"] }
        { files := [], dirs := [[['s']], [['d']]], unreadable := [[['d']]] }
      = Except.error (SyncError.permission m) := by
  constructor
  · exact (validate_paths_spec _ _).1.mpr
      ⟨"/s", "/d", rfl, rfl, by decide, by decide, by decide, by decide, by decide, by decide⟩
  · exact (validate_paths_spec _ _).2.2.2.1 "/s" "/d" rfl rfl (by decide) (by decide)
      (by decide) (by decide) (Or.inr (by decide))

/-- Inserting keeps the elements. -/
theorem insertByLen_perm (d : PathT) (l : List PathT) :
    (insertByLen d l).Perm (d :: l) := by
  induction l with
  | nil => exact List.Perm.refl _
  | cons x xs ih =>
    unfold insertByLen
    by_cases h : d.length ≤ x.length
    · rw [if_pos h]
    · rw [if_neg h]
      exact (ih.cons x).trans (List.Perm.swap d x xs)

/-- Sorting keeps the elements. -/
theorem sortByLen_perm (l : List PathT) : (sortByLen l).Perm l := by
  induction l with
  | nil => exact List.Perm.refl _
  | cons x xs ih =>
    unfold sortByLen
    exact (insertByLen_perm x (sortByLen xs)).trans (ih.cons x)

/-- Inserting preserves sortedness by length. -/
theorem insertByLen_pairwise (d : PathT) (l : List PathT)
    (h : l.Pairwise (fun a b => a.length ≤ b.length)) :
    (insertByLen d l).Pairwise (fun a b => a.length ≤ b.length) := by
  induction l with
  | nil => simp [insertByLen]
  | cons x xs ih =>
    rw [List.pairwise_cons] at h
    obtain ⟨hx, hxs⟩ := h
    unfold insertByLen
    by_cases hle : d.length ≤ x.length
    · rw [if_pos hle]
      refine List.Pairwise.cons ?_ (List.Pairwise.cons hx hxs)
      intro y hy
      rcases List.mem_cons.mp hy with rfl | hy2
      · exact hle
      · exact le_trans hle (hx y hy2)
    · rw [if_neg hle]
      refine List.Pairwise.cons ?_ (ih hxs)
      intro y hy
      have hmem := (insertByLen_perm d xs).mem_iff.mp hy
      rcases List.mem_cons.mp hmem with rfl | hy2
      · omega
      · exact hx y hy2

/-- The snapshot order is sorted by length: parents before children. -/
theorem sortByLen_pairwise (l : List PathT) :
    (sortByLen l).Pairwise (fun a b => a.length ≤ b.length) := by
  induction l with
  | nil => simp [sortByLen]
  | cons x xs ih => exact insertByLen_pairwise x (sortByLen xs) ih

/-- A prune visit never touches the file set. -/
theorem pruneStep_files (acc : FS) (d : PathT) : (pruneStep acc d).files = acc.files := by
  unfold pruneStep
  split
  · rfl
  · rfl

/-- A prune visit never touches the unreadable set. -/
theorem pruneStep_unreadable (acc : FS) (d : PathT) :
    (pruneStep acc d).unreadable = acc.unreadable := by
  unfold pruneStep
  split
  · rfl
  · rfl

/-- The whole prune pass never touches the file set. -/
theorem pruneFold_files (ds : List PathT) : ∀ acc : FS,
    (ds.foldl pruneStep acc).files = acc.files := by
  induction ds with
  | nil => intro acc; rfl
  | cons d rest ih =>
    intro acc
    rw [List.foldl_cons, ih (pruneStep acc d), pruneStep_files]

/-- Removing a directory at most as deep as `p` does not change whether
`p` has an entry, since entries of `p` are strictly deeper. -/
theorem hasChild_erase (acc : FS) (d p : PathT) (hnd : acc.dirs.Nodup)
    (hlen : d.length ≤ p.length) :
    hasChild { acc with dirs := acc.dirs.erase d } p = hasChild acc p := by
  unfold hasChild
  simp only
  have hiff : ((acc.dirs.erase d).any (fun x => !x.isEmpty && x.dropLast == p) = true) ↔
      (acc.dirs.any (fun x => !x.isEmpty && x.dropLast == p) = true) := by
    simp only [List.any_eq_true]
    constructor
    · rintro ⟨x, hx, hfx⟩
      exact ⟨x, List.mem_of_mem_erase hx, hfx⟩
    · rintro ⟨x, hx, hfx⟩
      refine ⟨x, ?_, hfx⟩
      rw [List.Nodup.mem_erase_iff hnd]
      refine ⟨?_, hx⟩
      intro heq
      rw [Bool.and_eq_true, Bool.not_eq_true', beq_iff_eq] at hfx
      have hxe : x ≠ [] := by
        intro hnil
        rw [hnil] at hfx
        cases hfx.1
      have hxlen : x.length = p.length + 1 := by
        have hd := hfx.2
        have := List.length_dropLast x
        rw [hd] at this
        have hx1 : 1 ≤ x.length := List.length_pos.mpr hxe
        omega
      rw [heq] at hxlen
      omega
  cases h1 : (acc.dirs.erase d).any (fun x => !x.isEmpty && x.dropLast == p) with
  | true =>
    rw [hiff.mp h1]
  | false =>
    cases h2 : acc.dirs.any (fun x => !x.isEmpty && x.dropLast == p) with
    | true =>
      rw [hiff.mpr h2] at h1
      cases h1
    | false => simp

/-- Outcome of the single prune pass over a length-sorted snapshot: a
directory is dropped exactly when it appears in the snapshot and had no
entry before the pass began.  A directory whose entries were only
directories removed later in the same pass is untouched, because its
children are visited after it. -/
theorem pruneFold_dirs (ds : List PathT) : ∀ acc : FS,
    ds.Pairwise (fun a b => a.length ≤ b.length) →
    acc.dirs.Nodup →
    ∀ p, p ∈ (ds.foldl pruneStep acc).dirs ↔
      (p ∈ acc.dirs ∧ ¬(p ∈ ds ∧ hasChild acc p = false)) := by
  induction ds with
  | nil =>
    intro acc _ _ p
    simp
  | cons d rest ih =>
    intro acc hpw hnd p
    rw [List.pairwise_cons] at hpw
    obtain ⟨hdle, hpw2⟩ := hpw
    rw [List.foldl_cons]
    by_cases hc : acc.dirs.contains d = true ∧ hasChild acc d = false
    · have hstep : pruneStep acc d = { acc with dirs := acc.dirs.erase d } := by
        unfold pruneStep
        rw [if_pos (by rw [hc.1, hc.2]; rfl)]
      rw [hstep]
      have hnd2 : (acc.dirs.erase d).Nodup := hnd.erase d
      have hih := ih { acc with dirs := acc.dirs.erase d } hpw2 hnd2 p
      rw [hih]
      by_cases hp : p = d
      · subst hp
        have hmem : p ∈ acc.dirs := (contains_iff_mem _ _).mp hc.1
        simp only [List.Nodup.mem_erase_iff hnd]
        constructor
        · rintro ⟨⟨hne, -⟩, -⟩
          exact absurd rfl hne
        · rintro ⟨-, hno⟩
          exact absurd ⟨List.mem_cons_self _ _, hc.2⟩ hno
      · have hmem : p ∈ acc.dirs.erase d ↔ p ∈ acc.dirs := by
          rw [List.Nodup.mem_erase_iff hnd]
          exact ⟨fun h => h.2, fun h => ⟨hp, h⟩⟩
        rw [hmem]
        have hcons : p ∈ d :: rest ↔ p ∈ rest := by
          rw [List.mem_cons]
          exact ⟨fun h => h.resolve_left hp, Or.inr⟩
        rw [hcons]
        by_cases hpr : p ∈ rest
        · rw [hasChild_erase acc d p hnd (hdle p hpr)]
        · constructor
          · rintro ⟨h1, -⟩
            exact ⟨h1, fun hcontra => absurd hcontra.1 hpr⟩
          · rintro ⟨h1, -⟩
            exact ⟨h1, fun hcontra => absurd hcontra.1 hpr⟩
    · have hstep : pruneStep acc d = acc := by
        unfold pruneStep
        rw [if_neg]
        intro hcontra
        rw [Bool.and_eq_true, Bool.not_eq_true'] at hcontra
        exact hc hcontra
      rw [hstep]
      have hih := ih acc hpw2 hnd p
      rw [hih]
      by_cases hp : p = d
      · subst hp
        constructor
        · rintro ⟨h1, h2⟩
          refine ⟨h1, ?_⟩
          rintro ⟨-, hch⟩
          exact hc ⟨(contains_iff_mem _ _).mpr h1, hch⟩
        · rintro ⟨h1, h2⟩
          refine ⟨h1, ?_⟩
          rintro ⟨hpr, hch⟩
          exact h2 ⟨List.mem_cons_of_mem _ hpr, hch⟩
      · have hcons : p ∈ d :: rest ↔ p ∈ rest := by
          rw [List.mem_cons]
          exact ⟨fun h => h.resolve_left hp, Or.inr⟩
        rw [hcons]

/-- Full description of a successful `cleanup_destination` call: the
returned list collects exactly the destination files that fail the keep
test, the resulting file set is the input minus that list, and (for a
duplicate-free directory list) the surviving directories are those not
emptied by the file-deletion phase alone. -/
theorem cleanup_destination_ok (config : WSLSyncConfig) (fs : FS) (keep : List PathT)
    (db : String) (hdb : config.wsl2_base = some db)
    (hex : pathExists fs (pathComps db) = true) :
    ∃ del fs2, cleanup_destination config fs keep = Except.ok (del, fs2) ∧
      (∀ p, p ∈ del ↔ p ∈ fs.files ∧ underB (pathComps db) p = true ∧
        shouldKeepB config (pathComps db) keep p = false) ∧
      fs2.files = fs.files.filter (fun p => !del.contains p) ∧
      (fs.dirs.Nodup →
        ∀ d, d ∈ fs2.dirs ↔ d ∈ fs.dirs ∧
          ¬(underB (pathComps db) d = true ∧
            hasChild { fs with files := fs.files.filter (fun p => !del.contains p) } d
              = false)) := by
  unfold cleanup_destination get_destination_files
  rw [hdb]
  simp only [hex, Bool.not_true, Bool.false_eq_true, if_false]
  refine ⟨_, _, rfl, ?_, ?_, ?_⟩
  · intro p
    simp only [List.mem_filter, Bool.not_eq_true', Bool.and_eq_true]
    tauto
  · exact pruneFold_files _ _
  · intro hnd d
    rw [pruneFold_dirs _
      { fs with files := fs.files.filter (fun p =>
        !((fs.files.filter (fun q => underB (pathComps db) q)).filter
          (fun q => !shouldKeepB config (pathComps db) keep q)).contains p) }
      (sortByLen_pairwise _) (by exact hnd) d]
    rw [(sortByLen_perm _).mem_iff, List.mem_filter]
    simp only
    constructor
    · rintro ⟨h1, h2⟩
      refine ⟨h1, ?_⟩
      rintro ⟨hu, hch⟩
      exact h2 ⟨⟨h1, hu⟩, hch⟩
    · rintro ⟨h1, h2⟩
      refine ⟨h1, ?_⟩
      rintro ⟨⟨-, hu⟩, hch⟩
      exact h2 ⟨hu, hch⟩

/-- A failed existence check makes `cleanup_destination` raise. -/
theorem cleanup_destination_no_dest (config : WSLSyncConfig) (fs : FS) (keep : List PathT)
    (db : String) (hdb : config.wsl2_base = some db)
    (hex : pathExists fs (pathComps db) = false) :
    cleanup_destination config fs keep =
      Except.error (SyncError.notFound
        ("Destination directory not found: " ++ pathStr (pathComps db))) := by
  unfold cleanup_destination get_destination_files
  rw [hdb]
  simp only [hex, Bool.not_false, if_true]

/-- C3: `cleanup_destination keep` deletes a regular file currently
under the destination root exactly when the file is neither a member of
`keep` nor covered by the string test `rel == entry or
rel.startswith(entry + "/")` against some configured entry, and it
returns exactly the list of deleted file paths. -/
theorem cleanup_destination_spec (config : WSLSyncConfig) (fs : FS) (keep : List PathT)
    (db : String) (del : List PathT) (fs2 : FS)
    (hdb : config.wsl2_base = some db)
    (hok : cleanup_destination config fs keep = Except.ok (del, fs2)) :
    (∀ p, p ∈ del ↔ (p ∈ fs.files ∧ underB (pathComps db) p = true ∧ p ∉ keep ∧
      ¬ ∃ e ∈ config.files,
        coveredByEntry (joinSlash (p.drop (pathComps db).length)) e = true)) ∧
    (∀ p, p ∈ fs2.files ↔ (p ∈ fs.files ∧ p ∉ del)) := by
  cases hex : pathExists fs (pathComps db) with
  | false =>
    rw [cleanup_destination_no_dest config fs keep db hdb hex] at hok
    cases hok
  | true =>
    obtain ⟨del2, fs3, heq, hdel, hfiles, -⟩ :=
      cleanup_destination_ok config fs keep db hdb hex
    rw [heq] at hok
    injection hok with hok2
    injection hok2 with hd hf
    subst hd
    subst hf
    constructor
    · intro p
      rw [hdel p]
      have hkeep : shouldKeepB config (pathComps db) keep p = false ↔
          (p ∉ keep ∧ ¬ ∃ e ∈ config.files,
            coveredByEntry (joinSlash (p.drop (pathComps db).length)) e = true) := by
        unfold shouldKeepB
        rw [Bool.or_eq_false_iff]
        constructor
        · rintro ⟨h1, h2⟩
          constructor
          · intro hmem
            rw [(contains_iff_mem keep p).mpr hmem] at h1
            cases h1
          · rintro ⟨e, he, hcov⟩
            have : config.files.any
                (fun e => coveredByEntry (joinSlash (p.drop (pathComps db).length)) e)
                = true := List.any_eq_true.mpr ⟨e, he, hcov⟩
            rw [this] at h2
            cases h2
        · rintro ⟨h1, h2⟩
          constructor
          · cases hcc : keep.contains p with
            | false => rfl
            | true => exact absurd ((contains_iff_mem keep p).mp hcc) h1
          · cases hcc : config.files.any
                (fun e => coveredByEntry (joinSlash (p.drop (pathComps db).length)) e) with
            | false => rfl
            | true =>
              obtain ⟨e, he, hcov⟩ := List.any_eq_true.mp hcc
              exact absurd ⟨e, he, hcov⟩ h2
      rw [hkeep]
    · intro p
      rw [hfiles]
      rw [List.mem_filter, Bool.not_eq_true']
      constructor
      · rintro ⟨h1, h2⟩
        refine ⟨h1, ?_⟩
        intro hmem
        rw [(contains_iff_mem _ _).mpr hmem] at h2
        cases h2
      · rintro ⟨h1, h2⟩
        refine ⟨h1, ?_⟩
        cases hcc : del2.contains p with
        | false => rfl
        | true => exact absurd ((contains_iff_mem _ _).mp hcc) h2

/-- Witness for C3: the characterization applied to a concrete state;
the stale file is reported deleted and gone, the kept file survives. -/
theorem cleanup_destination_spec_witness :
    ([['d'], ['s','t','a','l','e']] ∈ [[['d'], ['s','t','a','l','e']]] ↔
      ([['d'], ['s','t','a','l','e']] ∈
          [[['d'], ['k']], [['d'], ['s','t','a','l','e']]] ∧
        underB (pathComps "/d") [['d'], ['s','t','a','l','e']] = true ∧
        [['d'], ['s','t','a','l','e']] ∉ [[['d'], ['k']]] ∧
        ¬ ∃ e ∈ (["x"] : List String),
          coveredByEntry (joinSlash ([['d'], ['s','t','a','l','e']].drop
            (pathComps "/d").length)) e = true)) := by
  have h := cleanup_destination_spec
    { windows_base := some "/s", wsl2_base := some "/d", files := ["x"] }
    { files := [[['d'], ['k']], [['d'], ['s','t','a','l','e']]],
      dirs := [[['d']]], unreadable := [] }
    [[['d'], ['k']]] "/d" [[['d'], ['s','t','a','l','e']]]
    { files := [[['d'], ['k']]], dirs := [[['d']]], unreadable := [] }
    rfl (by rfl)
  exact h.1 [['d'], ['s','t','a','l','e']]

/-- C2 counterexample: after deleting `/d/a/b/f`, the single top-down
prune pass removes only the leaf `/d/a/b`; its parent `/d/a`, emptied
by that very removal, is visited first and survives, so an empty
directory remains under the destination root after cleanup. -/
theorem cleanup_destination_empty_parent_counterexample :
    cleanup_destination { windows_base := some "/s", wsl2_base := some "/d", files := ["z"] }
        { files := [[['d'], ['a'], ['b'], ['f']]],
          dirs := [[['d']], [['d'], ['a']], [['d'], ['a'], ['b']]], unreadable := [] } []
      = Except.ok ([[['d'], ['a'], ['b'], ['f']]],
          { files := [], dirs := [[['d']], [['d'], ['a']]], unreadable := [] }) ∧
    underB (pathComps "/d") [['d'], ['a']] = true ∧
    hasChild { files := [], dirs := [[['d']], [['d'], ['a']]], unreadable := [] }
      [['d'], ['a']] = false := by
  refine ⟨by rfl, by rfl, by rfl⟩

/-- C2 amended: the empty-directory step of `cleanup_destination` is a
single pass over a parent-before-child snapshot, not an
iterate-to-fixpoint loop: it removes exactly the directories under the
destination root that have no entries left once the file-deletion phase
is done, and a directory emptied only by the removal of its child
directories in the same pass is kept. -/
theorem cleanup_destination_prune_spec (config : WSLSyncConfig) (fs : FS)
    (keep : List PathT) (db : String) (del : List PathT) (fs2 : FS)
    (hdb : config.wsl2_base = some db) (hnd : fs.dirs.Nodup)
    (hok : cleanup_destination config fs keep = Except.ok (del, fs2)) :
    ∀ d, d ∈ fs2.dirs ↔ d ∈ fs.dirs ∧
      ¬(underB (pathComps db) d = true ∧
        hasChild { fs with files := fs.files.filter (fun p => !del.contains p) } d
          = false) := by
  cases hex : pathExists fs (pathComps db) with
  | false =>
    rw [cleanup_destination_no_dest config fs keep db hdb hex] at hok
    cases hok
  | true =>
    obtain ⟨del2, fs3, heq, -, -, hdirs⟩ :=
      cleanup_destination_ok config fs keep db hdb hex
    rw [heq] at hok
    injection hok with hok2
    injection hok2 with hd hf
    subst hd
    subst hf
    exact hdirs hnd

/-- Witness for C2's amended theorem: applied to the counterexample
state, it certifies that `/d/a` survives the pass while `/d/a/b` is
removed. -/
theorem cleanup_destination_prune_spec_witness :
    [['d'], ['a']] ∈
      ({ files := [], dirs := [[['d']], [['d'], ['a']]], unreadable := [] } : FS).dirs := by
  have h := cleanup_destination_prune_spec
    { windows_base := some "/s", wsl2_base := some "/d", files := ["z"] }
    { files := [[['d'], ['a'], ['b'], ['f']]],
      dirs := [[['d']], [['d'], ['a']], [['d'], ['a'], ['b']]], unreadable := [] }
    [] "/d" [[['d'], ['a'], ['b'], ['f']]]
    { files := [], dirs := [[['d']], [['d'], ['a']]], unreadable := [] }
    rfl (by decide) (by rfl) [['d'], ['a']]
  exact h.mpr (by decide)

/-- Left cancellation for path append. -/
theorem append_cancel_l {a b c : PathT} (h : a ++ b = a ++ c) : b = c := by
  induction a with
  | nil => exact h
  | cons x xs ih =>
    rw [List.cons_append, List.cons_append] at h
    injection h with h1 h2
    exact ih h2

/-- Appending something nonzero moves a list. -/
theorem append_eq_self {a s : PathT} (h : a ++ s = a) : s = [] := by
  have h2 : a ++ s = a ++ [] := by rw [List.append_nil]; exact h
  exact append_cancel_l h2

/-- Every list is a prefix of itself extended. -/
theorem pre_append (a b : PathT) : a <+: a ++ b := ⟨b, rfl⟩

/-- Two prefixes of the same list are comparable. -/
theorem pre_total {a b c : PathT} (h₁ : a <+: c) (h₂ : b <+: c) :
    a <+: b ∨ b <+: a := List.prefix_or_prefix_of_prefix h₁ h₂

/-- Neither root below the other stays true below either side. -/
theorem not_prefix_across {a b : PathT} (hab : ¬ a <+: b) (hba : ¬ b <+: a) (x : PathT) :
    ¬ a <+: b ++ x := by
  intro h
  rcases pre_total h (pre_append b x) with h2 | h2
  · exact hab h2
  · exact hba h2

/-- Dropping the last element of a properly extended list keeps the
proper prefix. -/
theorem pre_dropLast {q p : PathT} (h : q <+: p) (hne : q ≠ p) : q <+: p.dropLast := by
  obtain ⟨t, rfl⟩ := h
  have ht : t ≠ [] := by
    intro hnil
    rw [hnil, List.append_nil] at hne
    exact hne rfl
  rw [List.dropLast_append_of_ne_nil q ht]
  exact pre_append _ _

/-- A prefix splits its extension off. -/
theorem eq_append_drop {b p : PathT} (h : b <+: p) : p = b ++ p.drop b.length := by
  obtain ⟨t, rfl⟩ := h
  rw [List.drop_left]

/-- Membership in the nonempty-prefix enumeration. -/
theorem mem_prefixesOf {q x : PathT} : x ∈ prefixesOf q ↔ (x ≠ [] ∧ x <+: q) := by
  unfold prefixesOf
  rw [List.mem_map]
  constructor
  · rintro ⟨i, hi, rfl⟩
    rw [List.mem_range] at hi
    constructor
    · intro hnil
      have := congrArg List.length hnil
      rw [List.length_take] at this
      simp only [List.length_nil] at this
      omega
    · exact List.take_prefix _ _
  · rintro ⟨hne, hpre⟩
    refine ⟨x.length - 1, ?_, ?_⟩
    · rw [List.mem_range]
      have h1 := hpre.length_le
      have h2 : 0 < x.length := List.length_pos.mpr hne
      omega
    · have h2 : 0 < x.length := List.length_pos.mpr hne
      rw [show x.length - 1 + 1 = x.length by omega]
      exact (List.prefix_iff_eq_take.mp hpre).symm

/-- The boolean strict-below test, unfolded. -/
theorem underB_iff {b p : PathT} : underB b p = true ↔ (b <+: p ∧ b ≠ p) := by
  unfold underB
  rw [Bool.and_eq_true, Bool.not_eq_true', beq_eq_false_iff_ne]
  rw [isPrefixOf_iff_pre]

/-- In a well-formed state nothing sits strictly below a regular file. -/
theorem fswf_not_below_file {fs : FS} (hwf : FSWF fs) {f x : PathT} (hf : f ∈ fs.files)
    (hx : x ∈ fs.files ∨ x ∈ fs.dirs) (hpre : f <+: x) (hne : f ≠ x) : False := by
  obtain ⟨hvf, hvd, hdisj, hclf, hcld⟩ := hwf
  have hfne : f ≠ [] := (hvf f hf).1
  have hf2 : f ∈ fs.dirs := by
    have hmem : f ∈ prefixesOf x.dropLast :=
      mem_prefixesOf.mpr ⟨hfne, pre_dropLast hpre hne⟩
    rcases hx with hx | hx
    · exact hclf x hx f hmem
    · exact hcld x hx f hmem
  exact hdisj f hf hf2

/-- Effect of `create_directory_structure` on success: files unchanged,
the nonempty prefixes of the parent become directories, and none of
them was a regular file. -/
theorem create_directory_structure_ok {fs : FS} {dest : PathT} {fs1 : FS}
    (h : create_directory_structure fs dest = Except.ok fs1) :
    fs1.files = fs.files ∧
    (∀ p, p ∈ fs1.dirs ↔ (p ∈ fs.dirs ∨ (p ≠ [] ∧ p <+: dest.dropLast))) ∧
    (∀ q, q ≠ [] → q <+: dest.dropLast → q ∉ fs.files) ∧
    fs1.unreadable = fs.unreadable := by
  unfold create_directory_structure at h
  by_cases hc : (prefixesOf dest.dropLast).any (fun q => fs.files.contains q) = true
  · rw [if_pos hc] at h
    cases h
  · rw [if_neg hc] at h
    injection h with h2
    subst h2
    refine ⟨rfl, ?_, ?_, rfl⟩
    · intro p
      simp only [List.mem_append, List.mem_filter, Bool.not_eq_true']
      constructor
      · rintro (hp | ⟨hp, -⟩)
        · exact Or.inl hp
        · exact Or.inr (mem_prefixesOf.mp hp)
      · rintro (hp | hp)
        · exact Or.inl hp
        · by_cases hin : p ∈ fs.dirs
          · exact Or.inl hin
          · refine Or.inr ⟨mem_prefixesOf.mpr hp, ?_⟩
            cases hcc : fs.dirs.contains p with
            | false => rfl
            | true => exact absurd ((contains_iff_mem _ _).mp hcc) hin
    · intro q hqne hqpre hqmem
      rw [List.any_eq_true] at hc
      exact hc ⟨q, mem_prefixesOf.mpr ⟨hqne, hqpre⟩, (contains_iff_mem _ _).mpr hqmem⟩

/-- Membership after `removeSubtree`. -/
theorem removeSubtree_mem (fs : FS) (dest : PathT) :
    (∀ p, p ∈ (removeSubtree fs dest).files ↔ (p ∈ fs.files ∧ ¬ dest <+: p)) ∧
    (∀ p, p ∈ (removeSubtree fs dest).dirs ↔ (p ∈ fs.dirs ∧ ¬ dest <+: p)) := by
  constructor
  · intro p
    unfold removeSubtree
    simp only [List.mem_filter, Bool.not_eq_true']
    constructor
    · rintro ⟨h1, h2⟩
      refine ⟨h1, ?_⟩
      intro hpre
      rw [(isPrefixOf_iff_pre dest p).mpr hpre] at h2
      cases h2
    · rintro ⟨h1, h2⟩
      refine ⟨h1, ?_⟩
      cases hcc : dest.isPrefixOf p with
      | false => rfl
      | true => exact absurd ((isPrefixOf_iff_pre dest p).mp hcc) h2
  · intro p
    unfold removeSubtree
    simp only [List.mem_filter, Bool.not_eq_true']
    constructor
    · rintro ⟨h1, h2⟩
      refine ⟨h1, ?_⟩
      intro hpre
      rw [(isPrefixOf_iff_pre dest p).mpr hpre] at h2
      cases h2
    · rintro ⟨h1, h2⟩
      refine ⟨h1, ?_⟩
      cases hcc : dest.isPrefixOf p with
      | false => rfl
      | true => exact absurd ((isPrefixOf_iff_pre dest p).mp hcc) h2

/-- Membership in the files after `copytreeFS`. -/
theorem copytreeFS_mem_files (fs : FS) (src dest : PathT) (p : PathT) :
    p ∈ (copytreeFS fs src dest).files ↔
      (p ∈ fs.files ∨ ∃ s, s ≠ [] ∧ p = dest ++ s ∧ src ++ s ∈ fs.files) := by
  unfold copytreeFS
  simp only [List.mem_append, List.mem_filter, List.mem_map, Bool.not_eq_true']
  constructor
  · rintro (hp | ⟨⟨q, ⟨hq1, hq2⟩, rfl⟩, -⟩)
    · exact Or.inl hp
    · obtain ⟨hpre, hne⟩ := underB_iff.mp hq2
      refine Or.inr ⟨q.drop src.length, ?_, rfl, ?_⟩
      · intro hnil
        have h2 := eq_append_drop hpre
        rw [hnil, List.append_nil] at h2
        exact hne h2.symm
      · rw [← eq_append_drop hpre]
        exact hq1
  · rintro (hp | ⟨s, hs, rfl, hsrc⟩)
    · exact Or.inl hp
    · by_cases hin : dest ++ s ∈ fs.files
      · exact Or.inl hin
      · refine Or.inr ⟨⟨src ++ s, ⟨hsrc, ?_⟩, ?_⟩, ?_⟩
        · refine underB_iff.mpr ⟨pre_append _ _, ?_⟩
          intro heq
          exact hs (append_eq_self heq.symm)
        · rw [List.drop_left]
        · cases hcc : fs.files.contains (dest ++ s) with
          | false => rfl
          | true => exact absurd ((contains_iff_mem _ _).mp hcc) hin

/-- Membership in the directories after `copytreeFS`. -/
theorem copytreeFS_mem_dirs (fs : FS) (src dest : PathT) (p : PathT) :
    p ∈ (copytreeFS fs src dest).dirs ↔
      (p ∈ fs.dirs ∨ (p ≠ [] ∧ p <+: dest) ∨
        ∃ s, s ≠ [] ∧ p = dest ++ s ∧ src ++ s ∈ fs.dirs) := by
  unfold copytreeFS
  simp only [List.mem_append, List.mem_filter, List.mem_map, Bool.not_eq_true']
  constructor
  · rintro (hp | ⟨hp | ⟨q, ⟨hq1, hq2⟩, rfl⟩, -⟩)
    · exact Or.inl hp
    · exact Or.inr (Or.inl (mem_prefixesOf.mp hp))
    · obtain ⟨hpre, hne⟩ := underB_iff.mp hq2
      refine Or.inr (Or.inr ⟨q.drop src.length, ?_, rfl, ?_⟩)
      · intro hnil
        have h2 := eq_append_drop hpre
        rw [hnil, List.append_nil] at h2
        exact hne h2.symm
      · rw [← eq_append_drop hpre]
        exact hq1
  · rintro (hp | hp | ⟨s, hs, rfl, hsrc⟩)
    · exact Or.inl hp
    · by_cases hin : p ∈ fs.dirs
      · exact Or.inl hin
      · refine Or.inr ⟨Or.inl (mem_prefixesOf.mpr hp), ?_⟩
        cases hcc : fs.dirs.contains p with
        | false => rfl
        | true => exact absurd ((contains_iff_mem _ _).mp hcc) hin
    · by_cases hin : dest ++ s ∈ fs.dirs
      · exact Or.inl hin
      · refine Or.inr ⟨Or.inr ⟨src ++ s, ⟨hsrc, ?_⟩, ?_⟩, ?_⟩
        · refine underB_iff.mpr ⟨pre_append _ _, ?_⟩
          intro heq
          exact hs (append_eq_self heq.symm)
        · rw [List.drop_left]
        · cases hcc : fs.dirs.contains (dest ++ s) with
          | false => rfl
          | true => exact absurd ((contains_iff_mem _ _).mp hcc) hin

/-- A missing source makes the entry fail with the not-found error and
no mutation. -/
theorem copyEntry_notFound {win w : PathT} {cur : FS} {e : String}
    (h : pathExists cur (win ++ pathComps e) = false) :
    copyEntry win w cur e = Except.error (SyncError.notFound
      ("Source path not found: " ++ pathStr (win ++ pathComps e))) := by
  simp only [copyEntry]
  rw [h]
  rfl

/-- One unfolding step of the loop. -/
theorem copyGo_cons (win w : PathT) (fs : FS) (acc : List PathT) (e : String)
    (rest : List String) :
    copyGo win w fs acc (e :: rest) =
      (match copyEntry win w fs e with
       | Except.error er => (fs, Except.error er)
       | Except.ok (fs2, recs) => copyGo win w fs2 (acc ++ recs) rest) := rfl

/-- The loop distributes over list append: later entries run on the
state the earlier ones produced, and an early failure short-circuits. -/
theorem copyGo_append (win w : PathT) (l₁ l₂ : List String) : ∀ (fs : FS) (acc : List PathT),
    copyGo win w fs acc (l₁ ++ l₂) =
      (match copyGo win w fs acc l₁ with
       | (fs1, Except.ok acc1) => copyGo win w fs1 acc1 l₂
       | (fs1, Except.error er) => (fs1, Except.error er)) := by
  induction l₁ with
  | nil =>
    intro fs acc
    rfl
  | cons e l₁ ih =>
    intro fs acc
    rw [List.cons_append, copyGo_cons, copyGo_cons]
    cases hstep : copyEntry win w fs e with
    | error er => rfl
    | ok pr =>
      obtain ⟨fs2, recs⟩ := pr
      simp only
      exact ih fs2 (acc ++ recs)

/-- Effect of a successful file-entry iteration. -/
theorem copyEntry_file_effect {win w : PathT} {cur : FS} {e : String} {fs2 : FS}
    {recs : List PathT}
    (hsrc : win ++ pathComps e ∈ cur.files)
    (hdd0 : w ++ pathComps e ∉ cur.dirs)
    (hok : copyEntry win w cur e = Except.ok (fs2, recs)) :
    recs = [w ++ pathComps e] ∧
    (∀ p, p ∈ fs2.files ↔ (p = w ++ pathComps e ∨ p ∈ cur.files)) ∧
    (∀ p, p ∈ fs2.dirs ↔ (p ∈ cur.dirs ∨ (p ≠ [] ∧ p <+: (w ++ pathComps e).dropLast))) ∧
    w ++ pathComps e ∉ cur.dirs ∧
    (∀ q, q ≠ [] → q <+: (w ++ pathComps e).dropLast → q ∉ cur.files) := by
  simp only [copyEntry] at hok
  rw [show (!pathExists cur (win ++ pathComps e)) = false by
    unfold pathExists
    rw [(contains_iff_mem _ _).mpr hsrc]
    rfl] at hok
  rw [if_neg (by intro h; cases h)] at hok
  rw [if_pos ((contains_iff_mem _ _).mpr hsrc)] at hok
  cases hcd : create_directory_structure cur (w ++ pathComps e) with
  | error er =>
    rw [hcd] at hok
    cases hok
  | ok fs1 =>
    rw [hcd] at hok
    simp only at hok
    obtain ⟨hfiles1, hdirs1, hnof1, -⟩ := create_directory_structure_ok hcd
    cases hdd : fs1.dirs.contains (w ++ pathComps e) with
    | true =>
      exfalso
      rcases (hdirs1 _).mp ((contains_iff_mem _ _).mp hdd) with hcc | ⟨hne, hpre⟩
      · exact hdd0 hcc
      · have h1 := hpre.length_le
        rw [List.length_dropLast] at h1
        have h2 := List.length_pos.mpr hne
        omega
    | false =>
      rw [if_neg (by intro h; rw [hdd] at h; cases h)] at hok
      injection hok with hok2
      injection hok2 with hfs hrecs
      subst hfs
      subst hrecs
      have hdnd : w ++ pathComps e ∉ fs1.dirs := by
        intro hmem
        rw [(contains_iff_mem _ _).mpr hmem] at hdd
        cases hdd
      have hnotdir : w ++ pathComps e ∉ cur.dirs := by
        intro hmem
        exact hdnd ((hdirs1 _).mpr (Or.inl hmem))
      refine ⟨rfl, ?_, ?_, hnotdir, hnof1⟩
      · intro p
        simp only
        cases hcc : fs1.files.contains (w ++ pathComps e) with
        | true =>
          rw [if_pos rfl]
          rw [hfiles1]
          constructor
          · intro hp
            exact Or.inr hp
          · rintro (rfl | hp)
            · rw [hfiles1] at hcc
              exact (contains_iff_mem _ _).mp hcc
            · exact hp
        | false =>
          rw [if_neg (by intro h; cases h)]
          rw [List.mem_cons, hfiles1]
      · intro p
        simp only
        exact hdirs1 p

/-- Appending to a nonempty list stays nonempty. -/
theorem append_ne_nil_left {a : PathT} (h : a ≠ []) (b : PathT) : a ++ b ≠ [] := by
  intro hh
  exact h (List.append_eq_nil.mp hh).1

/-- Prefix transitivity. -/
theorem pre_trans {a b c : PathT} (h1 : a <+: b) (h2 : b <+: c) : a <+: c := h1.trans h2

/-- In a well-formed state, every proper nonempty prefix of a node is a
directory. -/
theorem fswf_below_node {fs : FS} (hwf : FSWF fs) {x q : PathT}
    (hx : x ∈ fs.files ∨ x ∈ fs.dirs) (hq : q ≠ []) (hpre : q <+: x) (hne : q ≠ x) :
    q ∈ fs.dirs := by
  obtain ⟨hvf, hvd, hdisj2, hclf, hcld⟩ := hwf
  have hmem : q ∈ prefixesOf x.dropLast := mem_prefixesOf.mpr ⟨hq, pre_dropLast hpre hne⟩
  rcases hx with hx | hx
  · exact hclf x hx q hmem
  · exact hcld x hx q hmem

/-- A proper prefix relation versus `dropLast`, both ways. -/
theorem pre_dropLast_iff {q p : PathT} (hp : p ≠ []) :
    q <+: p.dropLast ↔ (q <+: p ∧ q ≠ p) := by
  constructor
  · intro h
    have hlen : p.dropLast.length < p.length := by
      rw [List.length_dropLast]
      have := List.length_pos.mpr hp
      omega
    refine ⟨pre_trans h (List.dropLast_prefix p), ?_⟩
    · intro heq
      have h2 := h.length_le
      rw [heq] at h2
      omega
  · rintro ⟨h1, h2⟩
    exact pre_dropLast h1 h2

/-- Effect of a successful directory-entry iteration: the destination
subtree is replaced by an exact mirror of the source subtree, the
destination ancestor chain exists, everything else is untouched, and
the recorded paths are exactly the mirrored files. -/
theorem copyEntry_dir_effect {win w : PathT} {cur : FS} {e : String} {fs2 : FS}
    {recs : List PathT}
    (hwf : FSWF cur)
    (hdisj : rootsDisjoint win w)
    (hwne : w ≠ [])
    (hsrc : win ++ pathComps e ∈ cur.dirs)
    (hsrcnf : win ++ pathComps e ∉ cur.files)
    (hok : copyEntry win w cur e = Except.ok (fs2, recs)) :
    (∀ p, p ∈ fs2.files ↔ ((p ∈ cur.files ∧ ¬ (w ++ pathComps e) <+: p) ∨
      (∃ s, s ≠ [] ∧ p = (w ++ pathComps e) ++ s ∧ (win ++ pathComps e) ++ s ∈ cur.files))) ∧
    (∀ p, p ∈ fs2.dirs ↔ ((p ∈ cur.dirs ∧ ¬ (w ++ pathComps e) <+: p) ∨
      (p ≠ [] ∧ p <+: (w ++ pathComps e)) ∨
      (∃ s, s ≠ [] ∧ p = (w ++ pathComps e) ++ s ∧ (win ++ pathComps e) ++ s ∈ cur.dirs))) ∧
    (∀ p, p ∈ recs ↔ (∃ s, s ≠ [] ∧ p = (w ++ pathComps e) ++ s ∧
      (win ++ pathComps e) ++ s ∈ cur.files)) ∧
    (w ++ pathComps e) ∉ cur.files ∧
    (∀ q, q ≠ [] → q ≠ (w ++ pathComps e) → q <+: (w ++ pathComps e) → q ∉ cur.files) := by
  have hdestne : (w ++ pathComps e) ≠ [] := append_ne_nil_left hwne _
  have hndw : ∀ y : PathT, ¬ (w ++ pathComps e) <+: win ++ y := by
    intro y h
    exact not_prefix_across hdisj.2 hdisj.1 y (pre_trans (pre_append w (pathComps e)) h)
  simp only [copyEntry] at hok
  rw [show (!pathExists cur (win ++ pathComps e)) = false by
    unfold pathExists
    rw [(contains_iff_mem _ _).mpr hsrc, Bool.or_true]
    rfl] at hok
  rw [if_neg (by intro h; cases h)] at hok
  have hsf : cur.files.contains (win ++ pathComps e) = false := by
    cases hcc : cur.files.contains (win ++ pathComps e) with
    | false => rfl
    | true => exact absurd ((contains_iff_mem _ _).mp hcc) hsrcnf
  rw [hsf] at hok
  rw [if_neg (by intro h; cases h)] at hok
  cases hdf : cur.files.contains (w ++ pathComps e) with
  | true =>
    rw [if_pos hdf] at hok
    cases hok
  | false =>
    rw [if_neg (by intro h; rw [hdf] at h; cases h)] at hok
    have hdestnf : (w ++ pathComps e) ∉ cur.files := by
      intro hmem
      rw [(contains_iff_mem _ _).mpr hmem] at hdf
      cases hdf
    -- characterize the post-rmtree state in both branches
    have hfs1 :
        (∀ p, p ∈ (if cur.dirs.contains (w ++ pathComps e) = true then
            removeSubtree cur (w ++ pathComps e) else cur).files ↔
          (p ∈ cur.files ∧ ¬ (w ++ pathComps e) <+: p)) ∧
        (∀ p, p ∈ (if cur.dirs.contains (w ++ pathComps e) = true then
            removeSubtree cur (w ++ pathComps e) else cur).dirs ↔
          (p ∈ cur.dirs ∧ ¬ (w ++ pathComps e) <+: p)) := by
      cases hdc : cur.dirs.contains (w ++ pathComps e) with
      | true =>
        rw [if_pos rfl]
        exact removeSubtree_mem cur (w ++ pathComps e)
      | false =>
        rw [if_neg (by intro h; cases h)]
        have hdnd : (w ++ pathComps e) ∉ cur.dirs := by
          intro hmem
          rw [(contains_iff_mem _ _).mpr hmem] at hdc
          cases hdc
        constructor
        · intro p
          constructor
          · intro hp
            refine ⟨hp, ?_⟩
            intro hpre
            by_cases heq : (w ++ pathComps e) = p
            · exact hdestnf (heq ▸ hp)
            · exact hdnd (fswf_below_node hwf (Or.inl hp) hdestne hpre heq)
          · exact fun h => h.1
        · intro p
          constructor
          · intro hp
            refine ⟨hp, ?_⟩
            intro hpre
            by_cases heq : (w ++ pathComps e) = p
            · exact hdnd (heq ▸ hp)
            · exact hdnd (fswf_below_node hwf (Or.inr hp) hdestne hpre heq)
          · exact fun h => h.1
    cases hanc : (prefixesOf (w ++ pathComps e).dropLast).any
        (fun q => (if cur.dirs.contains (w ++ pathComps e) = true then
          removeSubtree cur (w ++ pathComps e) else cur).files.contains q) with
    | true =>
      rw [hanc] at hok
      rw [if_pos rfl] at hok
      cases hok
    | false =>
      rw [hanc] at hok
      rw [if_neg (by intro h; cases h)] at hok
      injection hok with hok2
      injection hok2 with hfs hrecs
      subst hfs
      subst hrecs
      have hancm : ∀ q, q ≠ [] → q ≠ (w ++ pathComps e) → q <+: (w ++ pathComps e) →
          q ∉ cur.files := by
        intro q hq1 hq2 hq3 hmem
        have hqd : q <+: (w ++ pathComps e).dropLast :=
          (pre_dropLast_iff hdestne).mpr ⟨hq3, hq2⟩
        have hnotunder : ¬ (w ++ pathComps e) <+: q := by
          intro hcon
          exact hq2 (hcon.eq_of_length (le_antisymm hcon.length_le hq3.length_le)).symm
        have hq4 : q ∈ (if cur.dirs.contains (w ++ pathComps e) = true then
            removeSubtree cur (w ++ pathComps e) else cur).files :=
          (hfs1.1 q).mpr ⟨hmem, hnotunder⟩
        rw [List.any_eq_false] at hanc
        have h5 := hanc q (mem_prefixesOf.mpr ⟨hq1, hqd⟩)
        exact h5 ((contains_iff_mem _ _).mpr hq4)
      have hmirror_f : ∀ s : PathT,
          ((win ++ pathComps e) ++ s ∈ (if cur.dirs.contains (w ++ pathComps e) = true then
            removeSubtree cur (w ++ pathComps e) else cur).files ↔
          (win ++ pathComps e) ++ s ∈ cur.files) := by
        intro s
        rw [hfs1.1]
        constructor
        · exact fun h => h.1
        · intro h
          refine ⟨h, ?_⟩
          rw [List.append_assoc]
          exact hndw _
      have hmirror_d : ∀ s : PathT,
          ((win ++ pathComps e) ++ s ∈ (if cur.dirs.contains (w ++ pathComps e) = true then
            removeSubtree cur (w ++ pathComps e) else cur).dirs ↔
          (win ++ pathComps e) ++ s ∈ cur.dirs) := by
        intro s
        rw [hfs1.2]
        constructor
        · exact fun h => h.1
        · intro h
          refine ⟨h, ?_⟩
          rw [List.append_assoc]
          exact hndw _
      have hfilesc : ∀ p, p ∈ (copytreeFS (if cur.dirs.contains (w ++ pathComps e) = true then
          removeSubtree cur (w ++ pathComps e) else cur) (win ++ pathComps e)
          (w ++ pathComps e)).files ↔
          ((p ∈ cur.files ∧ ¬ (w ++ pathComps e) <+: p) ∨
            (∃ s, s ≠ [] ∧ p = (w ++ pathComps e) ++ s ∧
              (win ++ pathComps e) ++ s ∈ cur.files)) := by
        intro p
        rw [copytreeFS_mem_files]
        rw [hfs1.1]
        constructor
        · rintro (hp | ⟨s, hs1, hs2, hs3⟩)
          · exact Or.inl hp
          · exact Or.inr ⟨s, hs1, hs2, (hmirror_f s).mp hs3⟩
        · rintro (hp | ⟨s, hs1, hs2, hs3⟩)
          · exact Or.inl hp
          · exact Or.inr ⟨s, hs1, hs2, (hmirror_f s).mpr hs3⟩
      refine ⟨hfilesc, ?_, ?_, hdestnf, hancm⟩
      · intro p
        rw [copytreeFS_mem_dirs]
        rw [hfs1.2]
        constructor
        · rintro (hp | hp | ⟨s, hs1, hs2, hs3⟩)
          · exact Or.inl hp
          · exact Or.inr (Or.inl hp)
          · exact Or.inr (Or.inr ⟨s, hs1, hs2, (hmirror_d s).mp hs3⟩)
        · rintro (hp | hp | ⟨s, hs1, hs2, hs3⟩)
          · exact Or.inl hp
          · exact Or.inr (Or.inl hp)
          · exact Or.inr (Or.inr ⟨s, hs1, hs2, (hmirror_d s).mpr hs3⟩)
      · intro p
        rw [List.mem_filter]
        rw [hfilesc p]
        constructor
        · rintro ⟨hp, hu⟩
          obtain ⟨hpre, hne⟩ := underB_iff.mp hu
          rcases hp with ⟨-, hnp⟩ | hp
          · exact absurd hpre hnp
          · exact hp
        · rintro ⟨s, hs1, rfl, hs3⟩
          refine ⟨Or.inr ⟨s, hs1, rfl, hs3⟩, ?_⟩
          refine underB_iff.mpr ⟨pre_append _ _, ?_⟩
          intro heq
          exact hs1 (append_eq_self heq.symm)

/-- Valid path extended by valid components. -/
theorem validPathP_append {a b : PathT} (ha : validPathP a) (hb : ∀ c ∈ b, validCompP c) :
    validPathP (a ++ b) := by
  refine ⟨append_ne_nil_left ha.1 b, ?_⟩
  intro c hc
  rcases List.mem_append.mp hc with h | h
  · exact ha.2 c h
  · exact hb c h

/-- A nonempty prefix of a valid path is valid. -/
theorem validPathP_pre {v q : PathT} (hv : validPathP v) (hq : q <+: v) (hne : q ≠ []) :
    validPathP q := by
  refine ⟨hne, ?_⟩
  intro c hc
  exact hv.2 c (hq.subset hc)

/-- Rebasing an equation between paths below `w` to paths below `win`. -/
theorem rebase_eq (win w : PathT) {a b : PathT} (h : w ++ a = w ++ b) :
    win ++ a = win ++ b := by
  rw [append_cancel_l h]

/-- The expansion of a single file entry. -/
theorem specExpansion_file {win w : PathT} {fs0 : FS} {e : String}
    (hsrc : win ++ pathComps e ∈ fs0.files) :
    specExpansion win w fs0 [e] = [w ++ pathComps e] := by
  unfold specExpansion
  simp only [List.flatMap_cons, List.flatMap_nil, List.append_nil]
  rw [if_pos ((contains_iff_mem _ _).mpr hsrc)]

/-- The expansion of a single directory entry, member-wise. -/
theorem specExpansion_dir {win w : PathT} {fs0 : FS} {e : String}
    (hsrc : win ++ pathComps e ∉ fs0.files) (p : PathT) :
    p ∈ specExpansion win w fs0 [e] ↔
      (∃ s, s ≠ [] ∧ p = (w ++ pathComps e) ++ s ∧ (win ++ pathComps e) ++ s ∈ fs0.files) := by
  unfold specExpansion
  simp only [List.flatMap_cons, List.flatMap_nil, List.append_nil]
  rw [if_neg (by
    intro h
    exact hsrc ((contains_iff_mem _ _).mp h))]
  rw [List.mem_map]
  constructor
  · rintro ⟨q, hq, rfl⟩
    rw [List.mem_filter] at hq
    obtain ⟨hq1, hq2⟩ := hq
    obtain ⟨hpre, hne⟩ := underB_iff.mp hq2
    obtain ⟨t, ht⟩ := hpre
    refine ⟨t, ?_, ?_, ?_⟩
    · intro hnil
      rw [hnil, List.append_nil] at ht
      exact hne ht
    · rw [← ht, List.append_assoc, List.drop_left, ← List.append_assoc]
    · rw [ht]
      exact hq1
  · rintro ⟨s, hs1, rfl, hs3⟩
    refine ⟨(win ++ pathComps e) ++ s, ?_, ?_⟩
    · rw [List.mem_filter]
      refine ⟨hs3, underB_iff.mpr ⟨⟨s, rfl⟩, ?_⟩⟩
      intro heq
      have h5 : (win ++ pathComps e) ++ s = (win ++ pathComps e) ++ [] := by
        rw [List.append_nil]
        exact heq.symm
      exact hs1 (append_cancel_l h5)
    · rw [List.append_assoc, List.drop_left, ← List.append_assoc]

/-- The expansion distributes over entry append. -/
theorem specExpansion_append (win w : PathT) (fs0 : FS) (l₁ l₂ : List String) :
    specExpansion win w fs0 (l₁ ++ l₂) =
      specExpansion win w fs0 l₁ ++ specExpansion win w fs0 l₂ := by
  unfold specExpansion
  rw [List.flatMap_append]

/-- The loop invariant survives a successful file-entry iteration. -/
theorem copyInv_step_file {win w : PathT} {fs0 : FS}
    (hdisj : rootsDisjoint win w) (hwinv : validPathP win) (hwv : validPathP w)
    (hwf0 : FSWF fs0) {e : String} (he : entryValid e)
    (hnd : win ++ pathComps e ∈ fs0.files → w ++ pathComps e ∉ fs0.dirs)
    {done : List String} {cur : FS} {acc : List PathT}
    (hinv : copyInv win w fs0 done cur acc)
    {fs2 : FS} {recs : List PathT}
    (hsf : win ++ pathComps e ∈ cur.files)
    (hok : copyEntry win w cur e = Except.ok (fs2, recs)) :
    copyInv win w fs0 (done ++ [e]) fs2 (acc ++ recs) := by
  obtain ⟨hwf, hframe, hdone, hacc, hdnew⟩ := hinv
  have hsrc0 : win ++ pathComps e ∈ fs0.files := (hframe _ (pre_append win _)).1.mp hsf
  have hdd0 : w ++ pathComps e ∉ cur.dirs := by
    intro hmem
    by_cases h0 : w ++ pathComps e ∈ fs0.dirs
    · exact hnd hsrc0 h0
    · exact hdnew _ hmem h0 (pathComps e) he.1 rfl hsrc0
  obtain ⟨hrecs, hf2, hd2, hdnd, hqnf⟩ := copyEntry_file_effect hsf hdd0 hok
  have hdv : validPathP (w ++ pathComps e) := validPathP_append hwv he.2
  have hdne : (w ++ pathComps e) ≠ [] := hdv.1
  have hnwd : ¬ win <+: (w ++ pathComps e) := not_prefix_across hdisj.1 hdisj.2 _
  have hv2f : ∀ p ∈ fs2.files, validPathP p := by
    intro p hp
    rcases (hf2 p).mp hp with rfl | hp2
    · exact hdv
    · exact hwf.1 p hp2
  have hv2d : ∀ p ∈ fs2.dirs, validPathP p := by
    intro p hp
    rcases (hd2 p).mp hp with hp2 | ⟨hne, hpre⟩
    · exact hwf.2.1 p hp2
    · exact validPathP_pre hdv (pre_trans hpre (List.dropLast_prefix _)) hne
  have hdisj2 : ∀ p ∈ fs2.files, p ∉ fs2.dirs := by
    intro p hp hpd
    rcases (hf2 p).mp hp with rfl | hp2
    · rcases (hd2 _).mp hpd with hd | ⟨-, hpre⟩
      · exact hdnd hd
      · have h1 := hpre.length_le
        rw [List.length_dropLast] at h1
        have h2 := List.length_pos.mpr hdne
        omega
    · rcases (hd2 p).mp hpd with hd | ⟨hne, hpre⟩
      · exact hwf.2.2.1 p hp2 hd
      · exact hqnf p hne hpre hp2
  have hclo : ∀ p, (p ∈ fs2.files ∨ p ∈ fs2.dirs) →
      ∀ q, q ≠ [] → q <+: p → q ≠ p → q ∈ fs2.dirs := by
    intro p hp q hq1 hq2 hq3
    rcases hp with hp | hp
    · rcases (hf2 p).mp hp with rfl | hp2
      · exact (hd2 q).mpr (Or.inr ⟨hq1, pre_dropLast hq2 hq3⟩)
      · exact (hd2 q).mpr (Or.inl (fswf_below_node hwf (Or.inl hp2) hq1 hq2 hq3))
    · rcases (hd2 p).mp hp with hp2 | ⟨hne, hpre⟩
      · exact (hd2 q).mpr (Or.inl (fswf_below_node hwf (Or.inr hp2) hq1 hq2 hq3))
      · exact (hd2 q).mpr (Or.inr ⟨hq1, pre_trans hq2 hpre⟩)
  have hWF2 : FSWF fs2 := by
    refine ⟨hv2f, hv2d, hdisj2, ?_, ?_⟩
    · intro p hp q hqm
      obtain ⟨hq1, hq2⟩ := mem_prefixesOf.mp hqm
      obtain ⟨hq3, hq4⟩ := (pre_dropLast_iff (hv2f p hp).1).mp hq2
      exact hclo p (Or.inl hp) q hq1 hq3 hq4
    · intro p hp q hqm
      obtain ⟨hq1, hq2⟩ := mem_prefixesOf.mp hqm
      obtain ⟨hq3, hq4⟩ := (pre_dropLast_iff (hv2d p hp).1).mp hq2
      exact hclo p (Or.inr hp) q hq1 hq3 hq4
  have hframe2 : ∀ p : PathT, win <+: p →
      ((p ∈ fs2.files ↔ p ∈ fs0.files) ∧ (p ∈ fs2.dirs ↔ p ∈ fs0.dirs)) := by
    intro p hp
    constructor
    · rw [hf2 p]
      constructor
      · rintro (rfl | h2)
        · exact absurd hp hnwd
        · exact (hframe p hp).1.mp h2
      · intro h2
        exact Or.inr ((hframe p hp).1.mpr h2)
    · rw [hd2 p]
      constructor
      · rintro (h2 | ⟨-, hpre⟩)
        · exact (hframe p hp).2.mp h2
        · exact absurd (pre_trans hp (pre_trans hpre (List.dropLast_prefix _))) hnwd
      · intro h2
        exact Or.inl ((hframe p hp).2.mpr h2)
  have hdone2 : ∀ e2 ∈ done ++ [e], entryDone win w fs0 fs2 e2 := by
    intro e2 he2
    rcases List.mem_append.mp he2 with he2 | he2
    · have hE := hdone e2 he2
      constructor
      · intro hsrc2
        have hE1 := hE.1 hsrc2
        constructor
        · exact (hf2 _).mpr (Or.inr hE1.1)
        · intro s hs hmem
          rcases (hf2 _).mp hmem with heq | hmem2
          · have heqs : (win ++ pathComps e2) ++ s = win ++ pathComps e := by
              have h3 : w ++ (pathComps e2 ++ s) = w ++ pathComps e := by
                rw [← List.append_assoc]
                exact heq
              have h4 := rebase_eq win w h3
              rw [← List.append_assoc] at h4
              exact h4
            have hx : (win ++ pathComps e2) ++ s ∈ fs0.files := by
              rw [heqs]
              exact hsrc0
            exact fswf_not_below_file hwf0 hsrc2 (Or.inl hx) (pre_append _ s)
              (fun hcon => hs (append_eq_self hcon.symm))
          · exact hE1.2 s hs hmem2
      · intro hsrc2
        have hE2 := hE.2 hsrc2
        constructor
        · intro hmem
          rcases (hf2 _).mp hmem with heq | hmem2
          · have heqs : win ++ pathComps e2 = win ++ pathComps e := rebase_eq win w heq
            rw [heqs] at hsrc2
            exact hwf0.2.2.1 _ hsrc0 hsrc2
          · exact hE2.1 hmem2
        · intro s hs
          constructor
          · intro hmem
            rcases (hf2 _).mp hmem with heq | hmem2
            · have heqs : (win ++ pathComps e2) ++ s = win ++ pathComps e := by
                have h3 : w ++ (pathComps e2 ++ s) = w ++ pathComps e := by
                  rw [← List.append_assoc]
                  exact heq
                have h4 := rebase_eq win w h3
                rw [← List.append_assoc] at h4
                exact h4
              rw [heqs]
              exact hsrc0
            · exact (hE2.2 s hs).mp hmem2
          · intro hmem
            exact (hf2 _).mpr (Or.inr ((hE2.2 s hs).mpr hmem))
    · rw [List.mem_singleton] at he2
      subst he2
      constructor
      · intro _
        constructor
        · exact (hf2 _).mpr (Or.inl rfl)
        · intro s hs hmem
          rcases (hf2 _).mp hmem with heq | hmem2
          · exact hs (append_eq_self heq)
          · have hdd := fswf_below_node hwf (Or.inl hmem2) hdne (pre_append _ s)
              (fun hcon => hs (append_eq_self hcon.symm))
            exact hdnd hdd
      · intro hsd
        exact absurd hsd (hwf0.2.2.1 _ hsrc0)
  refine ⟨hWF2, hframe2, hdone2, ?_, ?_⟩
  · intro p
    rw [List.mem_append, hrecs, specExpansion_append, List.mem_append,
      specExpansion_file hsrc0, hacc p]
  · intro p hp hp0 v hv hpv
    rcases (hd2 p).mp hp with hpc | ⟨hne, hpre⟩
    · exact hdnew p hpc hp0 v hv hpv
    · obtain ⟨hpd, hpned⟩ := (pre_dropLast_iff hdne).mp hpre
      subst hpv
      obtain ⟨t, ht⟩ := hpd
      rw [List.append_assoc] at ht
      have hvt : v ++ t = pathComps e := append_cancel_l ht
      have hvne : v ≠ pathComps e := by
        intro hcon
        exact hpned (by rw [hcon])
      intro hmemf
      have hwinpre : win ++ v <+: win ++ pathComps e := by
        refine ⟨t, ?_⟩
        rw [List.append_assoc, hvt]
      have hwinne : win ++ v ≠ win ++ pathComps e := by
        intro hcon
        exact hvne (append_cancel_l hcon)
      have hdm : win ++ v ∈ fs0.dirs :=
        fswf_below_node hwf0 (Or.inl hsrc0) (append_ne_nil_left hwinv.1 v) hwinpre hwinne
      exact hwf0.2.2.1 _ hmemf hdm

/-- Prefix reflexivity. -/
theorem pre_refl (a : PathT) : a <+: a := ⟨[], List.append_nil a⟩

/-- The loop invariant survives a successful directory-entry iteration. -/
theorem copyInv_step_dir {win w : PathT} {fs0 : FS}
    (hdisj : rootsDisjoint win w) (hwinv : validPathP win) (hwv : validPathP w)
    (hwf0 : FSWF fs0) {e : String} (he : entryValid e)
    {done : List String} {cur : FS} {acc : List PathT}
    (hinv : copyInv win w fs0 done cur acc)
    {fs2 : FS} {recs : List PathT}
    (hsd : win ++ pathComps e ∈ cur.dirs)
    (hsnf : win ++ pathComps e ∉ cur.files)
    (hok : copyEntry win w cur e = Except.ok (fs2, recs)) :
    copyInv win w fs0 (done ++ [e]) fs2 (acc ++ recs) := by
  obtain ⟨hwf, hframe, hdone, hacc, hdnew⟩ := hinv
  obtain ⟨hf2, hd2, hrecs, hdnf, hancm⟩ :=
    copyEntry_dir_effect hwf hdisj hwv.1 hsd hsnf hok
  have hsrc0d : win ++ pathComps e ∈ fs0.dirs := (hframe _ (pre_append win _)).2.mp hsd
  have hsrc0nf : win ++ pathComps e ∉ fs0.files := fun h =>
    hsnf ((hframe _ (pre_append win _)).1.mpr h)
  have hdv : validPathP (w ++ pathComps e) := validPathP_append hwv he.2
  have hdne : (w ++ pathComps e) ≠ [] := hdv.1
  have hnwd : ¬ win <+: (w ++ pathComps e) := not_prefix_across hdisj.1 hdisj.2 _
  have hsv : validPathP (win ++ pathComps e) := validPathP_append hwinv he.2
  have hndw : ∀ y : PathT, ¬ (w ++ pathComps e) <+: win ++ y := by
    intro y h
    exact not_prefix_across hdisj.2 hdisj.1 y (pre_trans (pre_append w (pathComps e)) h)
  have hnwd2 : ∀ s : PathT, ¬ win <+: (w ++ pathComps e) ++ s := by
    intro s h
    rw [List.append_assoc] at h
    exact not_prefix_across hdisj.1 hdisj.2 _ h
  have hwinsub : ∀ (x s : PathT), win <+: (win ++ x) ++ s := by
    intro x s
    rw [List.append_assoc]
    exact pre_append win _
  have hsufv : ∀ s : PathT,
      ((win ++ pathComps e) ++ s ∈ cur.files ∨ (win ++ pathComps e) ++ s ∈ cur.dirs) →
      ∀ c ∈ s, validCompP c := by
    intro s hmem c hc
    have hv : validPathP ((win ++ pathComps e) ++ s) := by
      rcases hmem with h | h
      · exact hwf.1 _ h
      · exact hwf.2.1 _ h
    exact hv.2 c (List.mem_append.mpr (Or.inr hc))
  have hv2f : ∀ p ∈ fs2.files, validPathP p := by
    intro p hp
    rcases (hf2 p).mp hp with ⟨hp2, -⟩ | ⟨s, hs1, rfl, hs3⟩
    · exact hwf.1 p hp2
    · exact validPathP_append hdv (hsufv s (Or.inl hs3))
  have hv2d : ∀ p ∈ fs2.dirs, validPathP p := by
    intro p hp
    rcases (hd2 p).mp hp with ⟨hp2, -⟩ | ⟨hne, hpre⟩ | ⟨s, hs1, rfl, hs3⟩
    · exact hwf.2.1 p hp2
    · exact validPathP_pre hdv hpre hne
    · exact validPathP_append hdv (hsufv s (Or.inr hs3))
  have hdisj2 : ∀ p ∈ fs2.files, p ∉ fs2.dirs := by
    intro p hp hpd
    rcases (hf2 p).mp hp with ⟨hp2, hnu⟩ | ⟨s, hs1, rfl, hs3⟩
    · rcases (hd2 p).mp hpd with ⟨hd, -⟩ | ⟨hne, hpre⟩ | ⟨t, ht1, rfl, -⟩
      · exact hwf.2.2.1 p hp2 hd
      · by_cases heq : p = (w ++ pathComps e)
        · exact hdnf (heq ▸ hp2)
        · exact hancm p hne heq hpre hp2
      · exact hnu (pre_append _ t)
    · rcases (hd2 _).mp hpd with ⟨-, hnu⟩ | ⟨hne, hpre⟩ | ⟨t, ht1, heq, ht3⟩
      · exact hnu (pre_append _ s)
      · have h1 := hpre.length_le
        rw [List.length_append] at h1
        have h2 : 0 < s.length := List.length_pos.mpr hs1
        omega
      · have hst := append_cancel_l heq
        rw [← hst] at ht3
        exact hwf.2.2.1 _ hs3 ht3
  have hmirclo : ∀ s : PathT, s ≠ [] →
      ((win ++ pathComps e) ++ s ∈ cur.files ∨ (win ++ pathComps e) ++ s ∈ cur.dirs) →
      ∀ q, q ≠ [] → q <+: (w ++ pathComps e) ++ s → q ≠ (w ++ pathComps e) ++ s →
      q ∈ fs2.dirs := by
    intro s hs hsmem q hq1 hq2 hq3
    by_cases hql : q.length ≤ (w ++ pathComps e).length
    · have hqd : q <+: (w ++ pathComps e) := by
        rcases pre_total hq2 (pre_append (w ++ pathComps e) s) with h | h
        · exact h
        · obtain rfl := h.eq_of_length (le_antisymm h.length_le hql)
          exact pre_refl _
      exact (hd2 q).mpr (Or.inr (Or.inl ⟨hq1, hqd⟩))
    · have hdq : (w ++ pathComps e) <+: q := by
        rcases pre_total hq2 (pre_append (w ++ pathComps e) s) with h | h
        · exact absurd h.length_le (by omega)
        · exact h
      obtain ⟨t, ht⟩ := hdq
      have htne : t ≠ [] := by
        intro hnil
        rw [hnil, List.append_nil] at ht
        have h5 := congrArg List.length ht
        omega
      have hts : t <+: s := by
        have h5 : (w ++ pathComps e) ++ t <+: (w ++ pathComps e) ++ s := by
          rw [ht]
          exact hq2
        exact (List.prefix_append_right_inj _).mp h5
      have htnes : t ≠ s := by
        intro hts2
        rw [hts2] at ht
        exact hq3 ht.symm
      have hsrct : (win ++ pathComps e) ++ t ∈ cur.dirs := by
        refine fswf_below_node hwf hsmem (append_ne_nil_left hsv.1 t) ?_ ?_
        · exact (List.prefix_append_right_inj _).mpr hts
        · intro hcon
          exact htnes (append_cancel_l hcon)
      exact (hd2 q).mpr (Or.inr (Or.inr ⟨t, htne, ht.symm, hsrct⟩))
  have hclo : ∀ p, (p ∈ fs2.files ∨ p ∈ fs2.dirs) →
      ∀ q, q ≠ [] → q <+: p → q ≠ p → q ∈ fs2.dirs := by
    intro p hp q hq1 hq2 hq3
    rcases hp with hp | hp
    · rcases (hf2 p).mp hp with ⟨hp2, hnu⟩ | ⟨s, hs1, rfl, hs3⟩
      · have hq := fswf_below_node hwf (Or.inl hp2) hq1 hq2 hq3
        refine (hd2 q).mpr (Or.inl ⟨hq, ?_⟩)
        intro hqq
        exact hnu (pre_trans hqq hq2)
      · exact hmirclo s hs1 (Or.inl hs3) q hq1 hq2 hq3
    · rcases (hd2 p).mp hp with ⟨hp2, hnu⟩ | ⟨hne, hpre⟩ | ⟨s, hs1, rfl, hs3⟩
      · have hq := fswf_below_node hwf (Or.inr hp2) hq1 hq2 hq3
        refine (hd2 q).mpr (Or.inl ⟨hq, ?_⟩)
        intro hqq
        exact hnu (pre_trans hqq hq2)
      · exact (hd2 q).mpr (Or.inr (Or.inl ⟨hq1, pre_trans hq2 hpre⟩))
      · exact hmirclo s hs1 (Or.inr hs3) q hq1 hq2 hq3
  have hWF2 : FSWF fs2 := by
    refine ⟨hv2f, hv2d, hdisj2, ?_, ?_⟩
    · intro p hp q hqm
      obtain ⟨hq1, hq2⟩ := mem_prefixesOf.mp hqm
      obtain ⟨hq3, hq4⟩ := (pre_dropLast_iff (hv2f p hp).1).mp hq2
      exact hclo p (Or.inl hp) q hq1 hq3 hq4
    · intro p hp q hqm
      obtain ⟨hq1, hq2⟩ := mem_prefixesOf.mp hqm
      obtain ⟨hq3, hq4⟩ := (pre_dropLast_iff (hv2d p hp).1).mp hq2
      exact hclo p (Or.inr hp) q hq1 hq3 hq4
  have hframe2 : ∀ p : PathT, win <+: p →
      ((p ∈ fs2.files ↔ p ∈ fs0.files) ∧ (p ∈ fs2.dirs ↔ p ∈ fs0.dirs)) := by
    intro p hp
    obtain ⟨y, hy⟩ := hp
    constructor
    · rw [hf2 p]
      constructor
      · rintro (⟨h2, -⟩ | ⟨s, hs1, rfl, -⟩)
        · exact (hframe p ⟨y, hy⟩).1.mp h2
        · exact absurd ⟨y, hy⟩ (hnwd2 s)
      · intro h2
        refine Or.inl ⟨(hframe p ⟨y, hy⟩).1.mpr h2, ?_⟩
        rw [← hy]
        exact hndw y
    · rw [hd2 p]
      constructor
      · rintro (⟨h2, -⟩ | ⟨-, hpre⟩ | ⟨s, hs1, rfl, -⟩)
        · exact (hframe p ⟨y, hy⟩).2.mp h2
        · exact absurd (pre_trans ⟨y, hy⟩ hpre) hnwd
        · exact absurd ⟨y, hy⟩ (hnwd2 s)
      · intro h2
        refine Or.inl ⟨(hframe p ⟨y, hy⟩).2.mpr h2, ?_⟩
        rw [← hy]
        exact hndw y
  have hdone2 : ∀ e2 ∈ done ++ [e], entryDone win w fs0 fs2 e2 := by
    intro e2 he2
    rcases List.mem_append.mp he2 with he2 | he2
    · have hE := hdone e2 he2
      constructor
      · intro hsrc2
        have hE1 := hE.1 hsrc2
        constructor
        · by_cases hu : (w ++ pathComps e) <+: w ++ pathComps e2
          · obtain ⟨t, ht⟩ := hu
            have hsrc2eq : (win ++ pathComps e) ++ t = win ++ pathComps e2 := by
              have h3 : w ++ (pathComps e ++ t) = w ++ pathComps e2 := by
                rw [← List.append_assoc, ht]
              have h4 := rebase_eq win w h3
              rw [← List.append_assoc] at h4
              exact h4
            have htne : t ≠ [] := by
              intro hnil
              rw [hnil, List.append_nil] at hsrc2eq
              exact hwf0.2.2.1 _ hsrc2 (hsrc2eq ▸ hsrc0d)
            have hcur2 : (win ++ pathComps e) ++ t ∈ cur.files := by
              rw [hsrc2eq]
              exact (hframe _ (pre_append win _)).1.mpr hsrc2
            exact (hf2 _).mpr (Or.inr ⟨t, htne, ht.symm, hcur2⟩)
          · exact (hf2 _).mpr (Or.inl ⟨hE1.1, hu⟩)
        · intro s hs hmem
          rcases (hf2 _).mp hmem with ⟨hmem2, -⟩ | ⟨u, hu1, hequ, humem⟩
          · exact hE1.2 s hs hmem2
          · have heqsrc : (win ++ pathComps e2) ++ s = (win ++ pathComps e) ++ u := by
              have h3 : w ++ (pathComps e2 ++ s) = w ++ (pathComps e ++ u) := by
                rw [← List.append_assoc, ← List.append_assoc]
                exact hequ
              have h4 := rebase_eq win w h3
              rw [← List.append_assoc, ← List.append_assoc] at h4
              exact h4
            have hmem0 : (win ++ pathComps e2) ++ s ∈ fs0.files := by
              rw [heqsrc]
              exact (hframe _ (hwinsub _ u)).1.mp humem
            exact fswf_not_below_file hwf0 hsrc2 (Or.inl hmem0) (pre_append _ s)
              (fun hcon => hs (append_eq_self hcon.symm))
      · intro hsrc2
        have hE2 := hE.2 hsrc2
        constructor
        · intro hmem
          rcases (hf2 _).mp hmem with ⟨hmem2, -⟩ | ⟨u, hu1, hequ, humem⟩
          · exact hE2.1 hmem2
          · have heqsrc : win ++ pathComps e2 = (win ++ pathComps e) ++ u := by
              have h3 : w ++ pathComps e2 = w ++ (pathComps e ++ u) := by
                rw [← List.append_assoc]
                exact hequ
              have h4 := rebase_eq win w h3
              rw [← List.append_assoc] at h4
              exact h4
            have hmem0 : win ++ pathComps e2 ∈ fs0.files := by
              rw [heqsrc]
              exact (hframe _ (hwinsub _ u)).1.mp humem
            exact hwf0.2.2.1 _ hmem0 hsrc2
        · intro s hs
          constructor
          · intro hmem
            rcases (hf2 _).mp hmem with ⟨hmem2, -⟩ | ⟨u, hu1, hequ, humem⟩
            · exact (hE2.2 s hs).mp hmem2
            · have heqsrc : (win ++ pathComps e2) ++ s = (win ++ pathComps e) ++ u := by
                have h3 : w ++ (pathComps e2 ++ s) = w ++ (pathComps e ++ u) := by
                  rw [← List.append_assoc, ← List.append_assoc]
                  exact hequ
                have h4 := rebase_eq win w h3
                rw [← List.append_assoc, ← List.append_assoc] at h4
                exact h4
              rw [heqsrc]
              exact (hframe _ (hwinsub _ u)).1.mp humem
          · intro hmem
            by_cases hu : (w ++ pathComps e) <+: (w ++ pathComps e2) ++ s
            · obtain ⟨u, hu2⟩ := hu
              have heqsrc : (win ++ pathComps e) ++ u = (win ++ pathComps e2) ++ s := by
                have h3 : w ++ (pathComps e ++ u) = w ++ (pathComps e2 ++ s) := by
                  rw [← List.append_assoc, ← List.append_assoc]
                  exact hu2
                have h4 := rebase_eq win w h3
                rw [← List.append_assoc, ← List.append_assoc] at h4
                exact h4
              refine (hf2 _).mpr (Or.inr ⟨u, ?_, hu2.symm, ?_⟩)
              · intro hnil
                rw [hnil, List.append_nil] at heqsrc
                exact hsrc0nf (heqsrc ▸ hmem)
              · have hmemc : (win ++ pathComps e2) ++ s ∈ cur.files :=
                  (hframe _ (hwinsub _ s)).1.mpr hmem
                rw [← heqsrc] at hmemc
                exact hmemc
            · exact (hf2 _).mpr (Or.inl ⟨(hE2.2 s hs).mpr hmem, hu⟩)
    · rw [List.mem_singleton] at he2
      subst he2
      constructor
      · intro hsrcf
        exact absurd hsrcf hsrc0nf
      · intro _
        constructor
        · intro hmem
          rcases (hf2 _).mp hmem with ⟨-, hnu⟩ | ⟨u, hu1, hequ, -⟩
          · exact hnu (pre_refl _)
          · exact hu1 (append_eq_self hequ.symm)
        · intro s hs
          constructor
          · intro hmem
            rcases (hf2 _).mp hmem with ⟨-, hnu⟩ | ⟨u, hu1, hequ, humem⟩
            · exact absurd (pre_append _ s) hnu
            · have hsu := append_cancel_l hequ
              rw [← hsu] at humem
              exact (hframe _ (hwinsub _ s)).1.mp humem
          · intro hmem
            refine (hf2 _).mpr (Or.inr ⟨s, hs, rfl, ?_⟩)
            exact (hframe _ (hwinsub _ s)).1.mpr hmem
  have hrec2 : ∀ p, p ∈ recs ↔ p ∈ specExpansion win w fs0 [e] := by
    intro p
    rw [hrecs p, specExpansion_dir hsrc0nf p]
    constructor
    · rintro ⟨s, hs1, rfl, hs3⟩
      exact ⟨s, hs1, rfl, (hframe _ (hwinsub _ s)).1.mp hs3⟩
    · rintro ⟨s, hs1, rfl, hs3⟩
      exact ⟨s, hs1, rfl, (hframe _ (hwinsub _ s)).1.mpr hs3⟩
  refine ⟨hWF2, hframe2, hdone2, ?_, ?_⟩
  · intro p
    rw [List.mem_append, specExpansion_append, List.mem_append, hacc p, hrec2 p]
  · intro p hp hp0 v hv hpv
    rcases (hd2 p).mp hp with ⟨hpc, -⟩ | ⟨hne, hpre⟩ | ⟨s, hsne, hpeq, hsmem⟩
    · exact hdnew p hpc hp0 v hv hpv
    · subst hpv
      obtain ⟨t, ht⟩ := hpre
      rw [List.append_assoc] at ht
      have hvt : v ++ t = pathComps e := append_cancel_l ht
      intro hmemf
      have hdm : win ++ v ∈ fs0.dirs := by
        by_cases hveq : v = pathComps e
        · rw [hveq]
          exact hsrc0d
        · refine fswf_below_node hwf0 (Or.inr hsrc0d)
            (append_ne_nil_left hwinv.1 v) ⟨t, ?_⟩ ?_
          · rw [List.append_assoc, hvt]
          · intro hcon
            exact hveq (append_cancel_l hcon)
      exact hwf0.2.2.1 _ hmemf hdm
    · have hveq : v = pathComps e ++ s := by
        apply append_cancel_l
        rw [← hpv, hpeq, List.append_assoc]
      intro hmemf
      have hdm : win ++ v ∈ fs0.dirs := by
        have hsm0 : (win ++ pathComps e) ++ s ∈ fs0.dirs :=
          (hframe _ (hwinsub _ s)).2.mp hsmem
        rw [hveq, ← List.append_assoc]
        exact hsm0
      exact hwf0.2.2.1 _ hmemf hdm

/-- The splitter never returns an empty list of components. -/
theorem splitSlash_ne_nil (l : List Char) : splitSlash l ≠ [] := by
  cases l with
  | nil =>
    intro h
    cases h
  | cons c rest =>
    unfold splitSlash
    by_cases hc : c = '/'
    · rw [if_pos hc]
      intro h
      cases h
    · rw [if_neg hc]
      intro h
      cases h

/-- One unfolding step of the splitter. -/
theorem splitSlash_cons (c : Char) (rest : List Char) :
    splitSlash (c :: rest) = if c = '/' then [] :: splitSlash rest
      else (c :: (splitSlash rest).headI) :: (splitSlash rest).tail := rfl

/-- Splitting distributes over a slash in the middle. -/
theorem splitSlash_append (a b : List Char) :
    splitSlash (a ++ '/' :: b) = splitSlash a ++ splitSlash b := by
  induction a with
  | nil =>
    rw [List.nil_append, splitSlash_cons, if_pos rfl]
    rfl
  | cons c a2 ih =>
    rw [List.cons_append, splitSlash_cons, splitSlash_cons]
    by_cases hc : c = '/'
    · rw [if_pos hc, if_pos hc, ih]
      rfl
    · rw [if_neg hc, if_neg hc, ih]
      cases hsp : splitSlash a2 with
      | nil => exact absurd hsp (splitSlash_ne_nil a2)
      | cons x xs => rfl

/-- A slash-free character list splits into itself alone. -/
theorem splitSlash_no_slash (l : List Char) (h : '/' ∉ l) : splitSlash l = [l] := by
  induction l with
  | nil => rfl
  | cons c rest ih =>
    rw [splitSlash_cons, if_neg (by
      intro hc
      exact h (hc ▸ List.mem_cons_self c rest))]
    rw [ih (fun hm => h (List.mem_cons_of_mem c hm))]
    rfl

/-- Splitting undoes joining for slash-free components. -/
theorem splitSlash_joinSlash (xs : List Comp) (hne : xs ≠ [])
    (hv : ∀ c ∈ xs, '/' ∉ c) : splitSlash (joinSlash xs) = xs := by
  induction xs with
  | nil => exact absurd rfl hne
  | cons x xs2 ih =>
    cases xs2 with
    | nil =>
      show splitSlash (joinSlash [x]) = [x]
      rw [show joinSlash [x] = x from rfl]
      exact splitSlash_no_slash x (hv x (List.mem_cons_self x []))
    | cons y ys =>
      rw [show joinSlash (x :: y :: ys) = x ++ '/' :: joinSlash (y :: ys) from rfl]
      rw [splitSlash_append, splitSlash_no_slash x (hv x (List.mem_cons_self x _))]
      rw [ih (by intro h; cases h) (fun c hc => hv c (List.mem_cons_of_mem x hc))]
      rfl

/-- Valid components pass the dot filter untouched. -/
theorem filter_valid_comps (xs : List Comp) (hv : ∀ c ∈ xs, validCompP c) :
    xs.filter (fun c => !(c == [] || c == ['.'])) = xs := by
  rw [List.filter_eq_self]
  intro c hc
  have h2 := hv c hc
  rw [Bool.not_eq_true', Bool.or_eq_false_iff]
  constructor
  · rw [beq_eq_false_iff_ne]
    exact h2.1
  · rw [beq_eq_false_iff_ne]
    exact h2.2.1

/-- `isPrefixOf` on character lists agrees with the prefix order. -/
theorem isPrefixOf_iff_chars (l₁ : List Char) :
    ∀ l₂ : List Char, l₁.isPrefixOf l₂ = true ↔ l₁ <+: l₂ := by
  induction l₁ with
  | nil =>
    intro l₂
    simp [List.isPrefixOf]
  | cons a as ih =>
    intro l₂
    cases l₂ with
    | nil => simp [List.isPrefixOf]
    | cons b bs =>
      simp [List.isPrefixOf, Bool.and_eq_true, beq_iff_eq, ih bs, List.cons_prefix_cons]

/-- What the cleanup string test certifies: if a relative path with
valid components is covered by an entry, the entry denotes exactly that
path or a proper component prefix of it. -/
theorem coveredByEntry_parse (rest : PathT) (e : String) (hne : rest ≠ [])
    (hv : ∀ c ∈ rest, validCompP c)
    (hcov : coveredByEntry (joinSlash rest) e = true) :
    pathComps e = rest ∨ (pathComps e <+: rest ∧ pathComps e ≠ rest) := by
  have hnos : ∀ c ∈ rest, '/' ∉ c := fun c hc => (hv c hc).2.2.2
  unfold coveredByEntry at hcov
  rw [Bool.or_eq_true] at hcov
  rcases hcov with hcov | hcov
  · rw [beq_iff_eq] at hcov
    left
    unfold pathComps
    rw [← hcov, splitSlash_joinSlash rest hne hnos]
    exact filter_valid_comps rest hv
  · rw [isPrefixOf_iff_chars] at hcov
    obtain ⟨t, ht⟩ := hcov
    right
    have hsplit : rest = splitSlash e.toList ++ splitSlash t := by
      rw [← splitSlash_joinSlash rest hne hnos, ← ht, List.append_assoc,
        List.singleton_append, splitSlash_append]
    have hvalidA : ∀ c ∈ splitSlash e.toList, validCompP c := by
      intro c hc
      exact hv c (by rw [hsplit]; exact List.mem_append.mpr (Or.inl hc))
    have hpc : pathComps e = splitSlash e.toList := by
      unfold pathComps
      exact filter_valid_comps _ hvalidA
    constructor
    · rw [hpc, hsplit]
      exact pre_append _ _
    · rw [hpc, hsplit]
      intro hcon
      have h2 : splitSlash e.toList ++ splitSlash t =
          splitSlash e.toList ++ ([] : List Comp) := by
        rw [List.append_nil]
        exact hcon.symm
      exact splitSlash_ne_nil t (append_cancel_l h2)

/-- The loop invariant survives any successful iteration. -/
theorem copyInv_step {win w : PathT} {fs0 : FS}
    (hdisj : rootsDisjoint win w) (hwinv : validPathP win) (hwv : validPathP w)
    (hwf0 : FSWF fs0) {e : String} (he : entryValid e)
    (hnd : win ++ pathComps e ∈ fs0.files → w ++ pathComps e ∉ fs0.dirs)
    {done : List String} {cur : FS} {acc : List PathT}
    (hinv : copyInv win w fs0 done cur acc)
    {fs2 : FS} {recs : List PathT}
    (hok : copyEntry win w cur e = Except.ok (fs2, recs)) :
    copyInv win w fs0 (done ++ [e]) fs2 (acc ++ recs) := by
  by_cases hex : pathExists cur (win ++ pathComps e) = true
  · by_cases hsf : win ++ pathComps e ∈ cur.files
    · exact copyInv_step_file hdisj hwinv hwv hwf0 he hnd hinv hsf hok
    · have hsd : win ++ pathComps e ∈ cur.dirs := by
        unfold pathExists at hex
        rw [Bool.or_eq_true] at hex
        rcases hex with h | h
        · exact absurd ((contains_iff_mem _ _).mp h) hsf
        · exact (contains_iff_mem _ _).mp h
      exact copyInv_step_dir hdisj hwinv hwv hwf0 he hinv hsd hsf hok
  · have hex2 : pathExists cur (win ++ pathComps e) = false := by
      cases h2 : pathExists cur (win ++ pathComps e) with
      | true => exact absurd h2 hex
      | false => rfl
    rw [copyEntry_notFound hex2] at hok
    cases hok

/-- The invariant holds before the first iteration. -/
theorem copyInv_init (win w : PathT) (fs0 : FS) (hwf0 : FSWF fs0) :
    copyInv win w fs0 [] fs0 [] := by
  refine ⟨hwf0, fun p _ => ⟨Iff.rfl, Iff.rfl⟩, ?_, ?_, ?_⟩
  · intro e he
    cases he
  · intro p
    constructor
    · intro h
      cases h
    · intro h
      cases h
  · intro p hp hp0 v _ _
    exact absurd hp hp0

/-- The invariant is carried through the whole loop. -/
theorem copyGo_inv {win w : PathT} {fs0 : FS}
    (hdisj : rootsDisjoint win w) (hwinv : validPathP win) (hwv : validPathP w)
    (hwf0 : FSWF fs0) :
    ∀ rest : List String, (∀ e ∈ rest, entryValid e) →
    (∀ e ∈ rest, win ++ pathComps e ∈ fs0.files → w ++ pathComps e ∉ fs0.dirs) →
    ∀ (done : List String) (cur : FS) (acc : List PathT) (fsOut : FS) (accOut : List PathT),
    copyInv win w fs0 done cur acc →
    copyGo win w cur acc rest = (fsOut, Except.ok accOut) →
    copyInv win w fs0 (done ++ rest) fsOut accOut := by
  intro rest
  induction rest with
  | nil =>
    intro _ _ done cur acc fsOut accOut hinv hgo
    injection hgo with h1 h2
    subst h1
    injection h2 with h3
    subst h3
    rw [List.append_nil]
    exact hinv
  | cons e rest ih =>
    intro hval hnds done cur acc fsOut accOut hinv hgo
    rw [copyGo_cons] at hgo
    cases hstep : copyEntry win w cur e with
    | error er =>
      rw [hstep] at hgo
      injection hgo with h1 h2
      cases h2
    | ok pr =>
      obtain ⟨fs2, recs⟩ := pr
      rw [hstep] at hgo
      simp only at hgo
      have hinv2 := copyInv_step hdisj hwinv hwv hwf0 (hval e (List.mem_cons_self e rest))
        (hnds e (List.mem_cons_self e rest)) hinv hstep
      have hres := ih (fun x hx => hval x (List.mem_cons_of_mem e hx))
        (fun x hx => hnds x (List.mem_cons_of_mem e hx))
        (done ++ [e]) fs2 (acc ++ recs) fsOut accOut hinv2 hgo
      rw [List.append_assoc, List.singleton_append] at hres
      exact hres

/-- A successful `copy_files` call satisfies the loop invariant over
all configured entries. -/
theorem copy_files_inv {config : WSLSyncConfig} {fs : FS} {ws ds : String}
    (hwb : config.windows_base = some ws) (hdb : config.wsl2_base = some ds)
    (hdisj : rootsDisjoint (pathComps ws) (pathComps ds))
    (hwinv : validPathP (pathComps ws)) (hwv : validPathP (pathComps ds))
    (hwf : FSWF fs)
    (hent : ∀ e ∈ config.files, entryValid e)
    (hnds : ∀ e ∈ config.files,
      pathComps ws ++ pathComps e ∈ fs.files → pathComps ds ++ pathComps e ∉ fs.dirs)
    {fsOut : FS} {copied : List PathT}
    (hok : copy_files config fs = (fsOut, Except.ok copied)) :
    copyInv (pathComps ws) (pathComps ds) fs config.files fsOut copied := by
  unfold copy_files at hok
  rw [hwb, hdb] at hok
  have hres := copyGo_inv hdisj hwinv hwv hwf config.files hent hnds [] fs [] fsOut copied
    (copyInv_init _ _ fs hwf) hok
  rw [List.nil_append] at hres
  exact hres

/-- Membership in the expansion, entry by entry. -/
theorem specExpansion_mem_iff {win w : PathT} {fs0 : FS} {es : List String} {p : PathT} :
    p ∈ specExpansion win w fs0 es ↔
      ∃ e ∈ es, p ∈ specExpansion win w fs0 [e] := by
  unfold specExpansion
  rw [List.mem_flatMap]
  constructor
  · rintro ⟨e, he, hp⟩
    refine ⟨e, he, ?_⟩
    rw [List.mem_flatMap]
    exact ⟨e, List.mem_singleton_self e, hp⟩
  · rintro ⟨e, he, hp⟩
    rw [List.mem_flatMap] at hp
    obtain ⟨e2, he2, hp2⟩ := hp
    rw [List.mem_singleton] at he2
    subst he2
    exact ⟨e2, he, hp2⟩

/-- Everything in the expansion sits strictly below the destination
root. -/
theorem specExpansion_under {win w : PathT} {fs0 : FS} {es : List String}
    (hent : ∀ e ∈ es, entryValid e) :
    ∀ p ∈ specExpansion win w fs0 es, w <+: p ∧ p ≠ w := by
  intro p hp
  obtain ⟨e, he, hpe⟩ := specExpansion_mem_iff.mp hp
  have hene := (hent e he).1
  unfold specExpansion at hpe
  simp only [List.flatMap_cons, List.flatMap_nil, List.append_nil] at hpe
  by_cases hf : fs0.files.contains (win ++ pathComps e) = true
  · rw [if_pos hf] at hpe
    rw [List.mem_singleton] at hpe
    subst hpe
    refine ⟨pre_append _ _, ?_⟩
    intro hcon
    exact hene (append_eq_self hcon)
  · rw [if_neg hf] at hpe
    rw [List.mem_map] at hpe
    obtain ⟨q, hq, rfl⟩ := hpe
    rw [List.mem_filter] at hq
    obtain ⟨hpre, -⟩ := underB_iff.mp hq.2
    obtain ⟨t, ht⟩ := hpre
    have hdrop : q.drop win.length = pathComps e ++ t := by
      rw [← ht, List.append_assoc, List.drop_left]
    rw [hdrop]
    refine ⟨pre_append _ _, ?_⟩
    intro hcon
    exact hene (List.append_eq_nil.mp (append_eq_self hcon)).1

/-- Frame of any successful iteration of the copy loop: paths under
the source root are untouched in both the file and the directory sets,
and every recorded path sits strictly under the destination root.
This holds for every branch of the loop body, including a file entry
whose destination is an existing directory (where `copy2` copies into
the directory). -/
theorem copyEntry_ok_frame {win w : PathT} (hdisj : rootsDisjoint win w)
    {cur : FS} {e : String} (hene : pathComps e ≠ []) {fs2 : FS} {recs : List PathT}
    (hok : copyEntry win w cur e = Except.ok (fs2, recs)) :
    (∀ p : PathT, win <+: p →
      ((p ∈ fs2.files ↔ p ∈ cur.files) ∧ (p ∈ fs2.dirs ↔ p ∈ cur.dirs))) ∧
    (∀ p ∈ recs, w <+: p ∧ p ≠ w) := by
  have hdest : w <+: w ++ pathComps e := pre_append w _
  have hdne : w ++ pathComps e ≠ w := by
    intro hcon
    exact hene (append_eq_self hcon)
  simp only [copyEntry] at hok
  cases hex : (!pathExists cur (win ++ pathComps e)) with
  | true =>
    rw [hex] at hok
    rw [if_pos rfl] at hok
    cases hok
  | false =>
    rw [hex] at hok
    rw [if_neg (by intro h; cases h)] at hok
    cases hsf : cur.files.contains (win ++ pathComps e) with
    | true =>
      rw [hsf] at hok
      rw [if_pos rfl] at hok
      cases hcd : create_directory_structure cur (w ++ pathComps e) with
      | error er =>
        rw [hcd] at hok
        cases hok
      | ok fs1 =>
        rw [hcd] at hok
        simp only at hok
        obtain ⟨hfiles1, hdirs1, -, -⟩ := create_directory_structure_ok hcd
        have hfin : ∀ tgt : PathT, w <+: tgt →
            fs2.files = (if fs1.files.contains tgt = true then fs1.files
              else tgt :: fs1.files) →
            fs2.dirs = fs1.dirs → recs = [w ++ pathComps e] →
            (∀ p : PathT, win <+: p →
              ((p ∈ fs2.files ↔ p ∈ cur.files) ∧ (p ∈ fs2.dirs ↔ p ∈ cur.dirs))) ∧
            (∀ p ∈ recs, w <+: p ∧ p ≠ w) := by
          intro tgt hwt hf2 hd2 hrecs2
          constructor
          · intro p hp
            have hnw : ¬ w <+: p := fun hcon => (pre_total hp hcon).elim hdisj.1 hdisj.2
            constructor
            · rw [hf2]
              cases hc : fs1.files.contains tgt with
              | true =>
                rw [if_pos rfl, hfiles1]
              | false =>
                rw [if_neg (by intro h; cases h), List.mem_cons, hfiles1]
                constructor
                · rintro (rfl | h)
                  · exact absurd hwt hnw
                  · exact h
                · exact Or.inr
            · rw [hd2, hdirs1 p]
              constructor
              · rintro (h | ⟨hne2, hpre⟩)
                · exact h
                · exact absurd (pre_trans hp (pre_trans hpre (List.dropLast_prefix _)))
                    (not_prefix_across hdisj.1 hdisj.2 _)
              · exact Or.inl
          · intro p hpm
            rw [hrecs2, List.mem_singleton] at hpm
            subst hpm
            exact ⟨hdest, hdne⟩
        cases hdd : fs1.dirs.contains (w ++ pathComps e) with
        | true =>
          rw [hdd] at hok
          rw [if_pos rfl] at hok
          cases hdd2 : fs1.dirs.contains
              ((w ++ pathComps e) ++ [(win ++ pathComps e).getLast?.getD []]) with
          | true =>
            rw [hdd2] at hok
            rw [if_pos rfl] at hok
            cases hok
          | false =>
            rw [hdd2] at hok
            rw [if_neg (by intro h; cases h)] at hok
            injection hok with hok2
            injection hok2 with hfs hrecs
            exact hfin ((w ++ pathComps e) ++ [(win ++ pathComps e).getLast?.getD []])
              ⟨pathComps e ++ [(win ++ pathComps e).getLast?.getD []],
                (List.append_assoc w (pathComps e) _).symm⟩
              (by rw [← hfs]) (by rw [← hfs]) hrecs.symm
        | false =>
          rw [hdd] at hok
          rw [if_neg (by intro h; cases h)] at hok
          injection hok with hok2
          injection hok2 with hfs hrecs
          exact hfin (w ++ pathComps e) hdest (by rw [← hfs]) (by rw [← hfs]) hrecs.symm
    | false =>
      rw [hsf] at hok
      rw [if_neg (by intro h; cases h)] at hok
      cases hdf : cur.files.contains (w ++ pathComps e) with
      | true =>
        rw [hdf] at hok
        rw [if_pos rfl] at hok
        cases hok
      | false =>
        rw [hdf] at hok
        rw [if_neg (by intro h; cases h)] at hok
        cases hanc : (prefixesOf (w ++ pathComps e).dropLast).any
            (fun q => (if cur.dirs.contains (w ++ pathComps e) = true then
              removeSubtree cur (w ++ pathComps e) else cur).files.contains q) with
        | true =>
          rw [hanc] at hok
          rw [if_pos rfl] at hok
          cases hok
        | false =>
          rw [hanc] at hok
          rw [if_neg (by intro h; cases h)] at hok
          injection hok with hok2
          injection hok2 with hfs hrecs
          constructor
          · intro p hp
            have hnw : ¬ w <+: p := fun hcon => (pre_total hp hcon).elim hdisj.1 hdisj.2
            have hndp : ¬ (w ++ pathComps e) <+: p := by
              intro hcon
              exact hnw (pre_trans hdest hcon)
            have hfs1 : (p ∈ (if cur.dirs.contains (w ++ pathComps e) = true then
                removeSubtree cur (w ++ pathComps e) else cur).files ↔ p ∈ cur.files) ∧
                (p ∈ (if cur.dirs.contains (w ++ pathComps e) = true then
                removeSubtree cur (w ++ pathComps e) else cur).dirs ↔ p ∈ cur.dirs) := by
              cases hdc : cur.dirs.contains (w ++ pathComps e) with
              | true =>
                rw [if_pos rfl]
                constructor
                · rw [(removeSubtree_mem cur (w ++ pathComps e)).1]
                  constructor
                  · exact fun h => h.1
                  · exact fun h => ⟨h, hndp⟩
                · rw [(removeSubtree_mem cur (w ++ pathComps e)).2]
                  constructor
                  · exact fun h => h.1
                  · exact fun h => ⟨h, hndp⟩
              | false =>
                rw [if_neg (by intro h; cases h)]
                exact ⟨Iff.rfl, Iff.rfl⟩
            rw [← hfs]
            constructor
            · rw [copytreeFS_mem_files]
              constructor
              · rintro (h | ⟨u, hune, rfl, -⟩)
                · exact hfs1.1.mp h
                · exact absurd ⟨pathComps e ++ u,
                    (List.append_assoc w (pathComps e) u).symm⟩ hnw
              · intro h
                exact Or.inl (hfs1.1.mpr h)
            · rw [copytreeFS_mem_dirs]
              constructor
              · rintro (h | ⟨hne2, hpre⟩ | ⟨u, hune, rfl, -⟩)
                · exact hfs1.2.mp h
                · exact absurd (pre_trans hp hpre)
                    (not_prefix_across hdisj.1 hdisj.2 _)
                · exact absurd ⟨pathComps e ++ u,
                    (List.append_assoc w (pathComps e) u).symm⟩ hnw
              · intro h
                exact Or.inl (hfs1.2.mpr h)
          · intro p hpm
            rw [← hrecs, List.mem_filter] at hpm
            obtain ⟨hpre2, hne2⟩ := underB_iff.mp hpm.2
            refine ⟨pre_trans hdest hpre2, ?_⟩
            intro hcon
            subst hcon
            have h1 := hpre2.length_le
            rw [List.length_append] at h1
            have h2 := List.length_pos.mpr hene
            omega

/-- The loop as a whole leaves the source subtree untouched and every
path it appends to the accumulator sits strictly under the destination
root. -/
theorem copyGo_ok_frame {win w : PathT} (hdisj : rootsDisjoint win w) :
    ∀ rest : List String, (∀ e ∈ rest, pathComps e ≠ []) →
    ∀ (cur : FS) (acc : List PathT) (fsOut : FS) (accOut : List PathT),
    copyGo win w cur acc rest = (fsOut, Except.ok accOut) →
    (∀ p : PathT, win <+: p →
      ((p ∈ fsOut.files ↔ p ∈ cur.files) ∧ (p ∈ fsOut.dirs ↔ p ∈ cur.dirs))) ∧
    (∀ p ∈ accOut, p ∈ acc ∨ (w <+: p ∧ p ≠ w)) := by
  intro rest
  induction rest with
  | nil =>
    intro _ cur acc fsOut accOut hgo
    injection hgo with h1 h2
    subst h1
    injection h2 with h3
    subst h3
    exact ⟨fun p _ => ⟨Iff.rfl, Iff.rfl⟩, fun p hp => Or.inl hp⟩
  | cons e rest ih =>
    intro hne cur acc fsOut accOut hgo
    rw [copyGo_cons] at hgo
    cases hstep : copyEntry win w cur e with
    | error er =>
      rw [hstep] at hgo
      injection hgo with h1 h2
      cases h2
    | ok pr =>
      obtain ⟨fs2, recs⟩ := pr
      rw [hstep] at hgo
      simp only at hgo
      obtain ⟨hfr1, hrec1⟩ :=
        copyEntry_ok_frame hdisj (hne e (List.mem_cons_self e rest)) hstep
      obtain ⟨hfr2, hrec2⟩ := ih (fun x hx => hne x (List.mem_cons_of_mem e hx))
        fs2 (acc ++ recs) fsOut accOut hgo
      constructor
      · intro p hp
        constructor
        · rw [(hfr2 p hp).1, (hfr1 p hp).1]
        · rw [(hfr2 p hp).2, (hfr1 p hp).2]
      · intro p hpm
        rcases hrec2 p hpm with hpA | hres
        · rcases List.mem_append.mp hpA with h | h
          · exact Or.inl h
          · exact Or.inr (hrec1 p h)
        · exact Or.inr hres

/-- C9: every path returned by a successful `copy_files` lies strictly
under the destination root: a file entry records its destination-mapped
path (also when `copy2` drops the file inside an existing destination
directory) and a directory entry records regular files enumerated below
the freshly copied destination subtree, so the keep set handed to
cleanup holds only destination-absolute paths. -/
theorem copy_files_paths_under_dest (config : WSLSyncConfig) (fs : FS) (ws ds : String)
    (fsOut : FS) (copied : List PathT)
    (hwb : config.windows_base = some ws) (hdb : config.wsl2_base = some ds)
    (hdisj : rootsDisjoint (pathComps ws) (pathComps ds))
    (hent : ∀ e ∈ config.files, pathComps e ≠ [])
    (hok : copy_files config fs = (fsOut, Except.ok copied)) :
    ∀ p ∈ copied, pathComps ds <+: p ∧ p ≠ pathComps ds := by
  unfold copy_files at hok
  rw [hwb, hdb] at hok
  obtain ⟨-, hrec⟩ := copyGo_ok_frame hdisj config.files hent fs [] fsOut copied hok
  intro p hp
  rcases hrec p hp with h | h
  · cases h
  · exact h

/-- Witness for C9: applied to a configuration whose file entry hits an
existing destination directory (so the loop records the directory path
itself), at that recorded path `d/a`. -/
theorem copy_files_paths_under_dest_witness :
    pathComps "/d" <+: [['d'], ['a']] ∧ [['d'], ['a']] ≠ pathComps "/d" :=
  copy_files_paths_under_dest
    { windows_base := some "/s", wsl2_base := some "/d", files := ["a", "s"] }
    { files := [[['s'], ['a']], [['s'], ['s'], ['b']]],
      dirs := [[['s']], [['d']], [['d'], ['a']], [['s'], ['s']]], unreadable := [] }
    "/s" "/d"
    { files := [[['d'], ['a'], ['a']], [['s'], ['a']], [['s'], ['s'], ['b']],
                [['d'], ['s'], ['b']]],
      dirs := [[['s']], [['d']], [['d'], ['a']], [['s'], ['s']], [['d'], ['s']]],
      unreadable := [] }
    [[['d'], ['a']], [['d'], ['s'], ['b']]]
    rfl rfl (by decide) (by decide) (by rfl) [['d'], ['a']] (by decide)

/-- A list does not contain an element exactly when it is not a
member. -/
theorem contains_eq_false_iff (l : List PathT) (p : PathT) :
    l.contains p = false ↔ p ∉ l := by
  constructor
  · intro h hm
    rw [(contains_iff_mem l p).mpr hm] at h
    cases h
  · intro h
    cases hc : l.contains p with
    | false => rfl
    | true => exact absurd ((contains_iff_mem l p).mp hc) h

/-- C4: when the configured entries split as a successfully processed
prefix followed by an entry whose source path does not exist,
`copy_files` stops at that entry with the not-found error naming its
source path, leaving the state exactly as the prefix left it (no later
entry is attempted), and `sync` propagates the same error without ever
invoking cleanup: the files copied for the prefix remain. -/
theorem copy_files_fail_fast (config : WSLSyncConfig) (fs : FS) (ws ds : String)
    (l₁ l₂ : List String) (e : String) (fsP : FS) (accP : List PathT)
    (hwb : config.windows_base = some ws) (hdb : config.wsl2_base = some ds)
    (hval : validate_paths config fs = Except.ok true)
    (hdisj : rootsDisjoint (pathComps ws) (pathComps ds))
    (hfiles : config.files = l₁ ++ e :: l₂)
    (hent : ∀ x ∈ l₁, pathComps x ≠ [])
    (hpre : copyGo (pathComps ws) (pathComps ds) fs [] l₁ = (fsP, Except.ok accP))
    (hmiss : pathExists fs (pathComps ws ++ pathComps e) = false) :
    copy_files config fs =
      (fsP, Except.error (SyncError.notFound
        ("Source path not found: " ++ pathStr (pathComps ws ++ pathComps e)))) ∧
    sync config fs =
      (fsP, Except.error (SyncError.notFound
        ("Source path not found: " ++ pathStr (pathComps ws ++ pathComps e)))) := by
  obtain ⟨hfr, -⟩ := copyGo_ok_frame hdisj l₁ hent fs [] fsP accP hpre
  have hframe := hfr (pathComps ws ++ pathComps e) (pre_append _ _)
  simp only [pathExists, Bool.or_eq_false_iff, contains_eq_false_iff] at hmiss
  have hmiss2 : pathExists fsP (pathComps ws ++ pathComps e) = false := by
    simp only [pathExists, Bool.or_eq_false_iff, contains_eq_false_iff]
    exact ⟨fun h => hmiss.1 (hframe.1.mp h), fun h => hmiss.2 (hframe.2.mp h)⟩
  have hcf : copy_files config fs =
      (fsP, Except.error (SyncError.notFound
        ("Source path not found: " ++ pathStr (pathComps ws ++ pathComps e)))) := by
    unfold copy_files
    rw [hwb, hdb, hfiles]
    show copyGo (pathComps ws) (pathComps ds) fs [] (l₁ ++ e :: l₂) = _
    rw [copyGo_append, hpre]
    show copyGo (pathComps ws) (pathComps ds) fsP accP (e :: l₂) = _
    rw [copyGo_cons, copyEntry_notFound hmiss2]
  refine ⟨hcf, ?_⟩
  unfold sync
  rw [hval, hcf]

/-- Witness for C4: with entries `["a", "missing"]` where only `a`
exists, the loop stops after copying `a` and `sync` returns the same
state and error. -/
theorem copy_files_fail_fast_witness :
    copy_files { windows_base := some "/s", wsl2_base := some "/d", files := ["a", "missing"] }
      { files := [[['s'], ['a']]], dirs := [[['s']], [['d']]], unreadable := [] } =
      ({ files := [[['d'], ['a']], [['s'], ['a']]], dirs := [[['s']], [['d']]],
         unreadable := [] },
       Except.error (SyncError.notFound
        ("Source path not found: " ++ pathStr (pathComps "/s" ++ pathComps "missing")))) ∧
    sync { windows_base := some "/s", wsl2_base := some "/d", files := ["a", "missing"] }
      { files := [[['s'], ['a']]], dirs := [[['s']], [['d']]], unreadable := [] } =
      ({ files := [[['d'], ['a']], [['s'], ['a']]], dirs := [[['s']], [['d']]],
         unreadable := [] },
       Except.error (SyncError.notFound
        ("Source path not found: " ++ pathStr (pathComps "/s" ++ pathComps "missing")))) :=
  copy_files_fail_fast
    { windows_base := some "/s", wsl2_base := some "/d", files := ["a", "missing"] }
    { files := [[['s'], ['a']]], dirs := [[['s']], [['d']]], unreadable := [] }
    "/s" "/d" ["a"] [] "missing"
    { files := [[['d'], ['a']], [['s'], ['a']]], dirs := [[['s']], [['d']]],
      unreadable := [] }
    [[['d'], ['a']]]
    rfl rfl rfl (by decide) rfl (by decide) rfl rfl

/-- C1 counterexample: with file entry `a`, source file `s/a`, and a
pre-existing destination *directory* `d/a` holding a stale file `d/a/x`,
`sync` completes successfully (`copy2` copies the file into the
directory, at `d/a/a`), yet the destination afterwards holds the files
`d/a/a` and `d/a/x` while the flattened expansion of the entries is the
single path `d/a`: the file set under the destination root differs from
the expansion, refuting the claim. -/
theorem sync_dest_dir_counterexample :
    (sync { windows_base := some "/s", wsl2_base := some "/d", files := ["a"] }
      { files := [[['s'], ['a']], [['d'], ['a'], ['x']]],
        dirs := [[['s']], [['d']], [['d'], ['a']]], unreadable := [] }).2 =
      Except.ok () ∧
    ([['d'], ['a'], ['a']] ∈
      (sync { windows_base := some "/s", wsl2_base := some "/d", files := ["a"] }
        { files := [[['s'], ['a']], [['d'], ['a'], ['x']]],
          dirs := [[['s']], [['d']], [['d'], ['a']]], unreadable := [] }).1.files ∧
     pathComps "/d" <+: [['d'], ['a'], ['a']] ∧
     [['d'], ['a'], ['a']] ≠ pathComps "/d") ∧
    [['d'], ['a'], ['a']] ∉ specExpansion (pathComps "/s") (pathComps "/d")
      { files := [[['s'], ['a']], [['d'], ['a'], ['x']]],
        dirs := [[['s']], [['d']], [['d'], ['a']]], unreadable := [] } ["a"] := by
  refine ⟨rfl, ⟨?_, by decide, by decide⟩, by decide⟩
  decide

/-- C1 (amended): after a successful `sync`, provided additionally no
file entry's destination already exists as a directory in the initial
state (otherwise `copy2` copies into that directory and the equality
fails), the regular files strictly under the destination root are
exactly the flattened expansion of the configured entries against the
original source tree: a file entry contributes its destination image, a
directory entry contributes the destination image of every regular file
below it, and no other file remains under the destination root. -/
theorem sync_spec (config : WSLSyncConfig) (fs fs2 : FS) (ws ds : String)
    (hwb : config.windows_base = some ws) (hdb : config.wsl2_base = some ds)
    (hdisj : rootsDisjoint (pathComps ws) (pathComps ds))
    (hwinv : validPathP (pathComps ws)) (hwv : validPathP (pathComps ds))
    (hwf : FSWF fs)
    (hent : ∀ e ∈ config.files, entryValid e)
    (hnds : ∀ e ∈ config.files,
      pathComps ws ++ pathComps e ∈ fs.files → pathComps ds ++ pathComps e ∉ fs.dirs)
    (hex : ∀ e ∈ config.files, pathExists fs (pathComps ws ++ pathComps e) = true)
    (hsync : sync config fs = (fs2, Except.ok ())) :
    ∀ p : PathT,
      (p ∈ fs2.files ∧ pathComps ds <+: p ∧ p ≠ pathComps ds) ↔
      p ∈ specExpansion (pathComps ws) (pathComps ds) fs config.files := by
  rcases hvp : validate_paths config fs with er | b
  · have hstep : sync config fs = (fs, Except.error er) := by
      unfold sync
      rw [hvp]
    rw [hstep] at hsync
    injection hsync with h1 h2
    cases h2
  · rcases hcf : copy_files config fs with ⟨fs1, res⟩
    rcases res with er | copied
    · have hstep : sync config fs = (fs1, Except.error er) := by
        unfold sync
        rw [hvp, hcf]
      rw [hstep] at hsync
      injection hsync with h1 h2
      cases h2
    · rcases hcl : cleanup_destination config fs1 copied with er | ⟨del0, fs20⟩
      · have hstep : sync config fs = (fs1, Except.error er) := by
          simp only [sync, hvp, hcf, hcl]
        rw [hstep] at hsync
        injection hsync with h1 h2
        cases h2
      · have hstep : sync config fs = (fs20, Except.ok ()) := by
          simp only [sync, hvp, hcf, hcl]
        rw [hstep] at hsync
        injection hsync with h1 h2
        subst h1
        obtain ⟨hwf1, hframe, hdone, hacc, -⟩ :=
          copy_files_inv hwb hdb hdisj hwinv hwv hwf hent hnds hcf
        have hex1 : pathExists fs1 (pathComps ds) = true := by
          cases hpe : pathExists fs1 (pathComps ds) with
          | true => rfl
          | false =>
            rw [cleanup_destination_no_dest config fs1 copied ds hdb hpe] at hcl
            cases hcl
        obtain ⟨del, fs2x, hclc, hdelc, hfilesc, -⟩ :=
          cleanup_destination_ok config fs1 copied ds hdb hex1
        rw [hclc] at hcl
        injection hcl with h3
        injection h3 with h4 h5
        subst h4
        subst h5
        intro p
        constructor
        · rintro ⟨hpf, hpre, hpne⟩
          rw [hfilesc, List.mem_filter] at hpf
          obtain ⟨hpf1, hpnd⟩ := hpf
          have hpdel : p ∉ del := by
            intro hm
            rw [(contains_iff_mem _ _).mpr hm] at hpnd
            cases hpnd
          have hkeep : shouldKeepB config (pathComps ds) copied p = true := by
            cases hk : shouldKeepB config (pathComps ds) copied p with
            | true => rfl
            | false =>
              exact absurd ((hdelc p).mpr
                ⟨hpf1, underB_iff.mpr ⟨hpre, Ne.symm hpne⟩, hk⟩) hpdel
          unfold shouldKeepB at hkeep
          rw [Bool.or_eq_true] at hkeep
          rcases hkeep with hkc | hkany
          · exact (hacc p).mp ((contains_iff_mem _ _).mp hkc)
          · rw [List.any_eq_true] at hkany
            obtain ⟨e, he, hcov⟩ := hkany
            have hpeq : p = pathComps ds ++ p.drop (pathComps ds).length :=
              eq_append_drop hpre
            have hrestne : p.drop (pathComps ds).length ≠ [] := by
              intro h
              rw [h, List.append_nil] at hpeq
              exact hpne hpeq
            have hvrest : ∀ c ∈ p.drop (pathComps ds).length, validCompP c :=
              fun c hc => (hwf1.1 p hpf1).2 c (List.drop_subset _ _ hc)
            have hparse := coveredByEntry_parse _ e hrestne hvrest hcov
            have hde := hdone e he
            have hexe := hex e he
            unfold pathExists at hexe
            rw [Bool.or_eq_true] at hexe
            rcases hparse with heq | ⟨hpre2, hne2⟩
            · rcases hexe with hsf | hsd
              · have hsf2 := (contains_iff_mem _ _).mp hsf
                refine specExpansion_mem_iff.mpr ⟨e, he, ?_⟩
                rw [specExpansion_file hsf2, List.mem_singleton, hpeq, heq]
              · have hsd2 := (contains_iff_mem _ _).mp hsd
                exfalso
                apply (hde.2 hsd2).1
                rw [heq, ← hpeq]
                exact hpf1
            · obtain ⟨t, ht⟩ := hpre2
              have htne : t ≠ [] := by
                intro h
                rw [h, List.append_nil] at ht
                exact hne2 ht
              rcases hexe with hsf | hsd
              · have hsf2 := (contains_iff_mem _ _).mp hsf
                exfalso
                apply (hde.1 hsf2).2 t htne
                rw [List.append_assoc, ht, ← hpeq]
                exact hpf1
              · have hsd2 := (contains_iff_mem _ _).mp hsd
                have hsnotf : pathComps ws ++ pathComps e ∉ fs.files :=
                  fun h => hwf.2.2.1 _ h hsd2
                have hmir := (hde.2 hsd2).2 t htne
                have hp1t : pathComps ds ++ pathComps e ++ t ∈ fs1.files := by
                  rw [List.append_assoc, ht, ← hpeq]
                  exact hpf1
                refine specExpansion_mem_iff.mpr ⟨e, he, ?_⟩
                rw [specExpansion_dir hsnotf]
                refine ⟨t, htne, ?_, ?_⟩
                · rw [List.append_assoc, ht, ← hpeq]
                · exact hmir.mp hp1t
        · intro hps
          have hunder := specExpansion_under hent p hps
          refine ⟨?_, hunder.1, hunder.2⟩
          rw [hfilesc, List.mem_filter]
          have hpc : p ∈ copied := (hacc p).mpr hps
          have hp1 : p ∈ fs1.files := by
            obtain ⟨e, he, hpe⟩ := specExpansion_mem_iff.mp hps
            have hexe := hex e he
            unfold pathExists at hexe
            rw [Bool.or_eq_true] at hexe
            have hde := hdone e he
            rcases hexe with hsf | hsd
            · have hsf2 := (contains_iff_mem _ _).mp hsf
              rw [specExpansion_file hsf2, List.mem_singleton] at hpe
              rw [hpe]
              exact (hde.1 hsf2).1
            · have hsd2 := (contains_iff_mem _ _).mp hsd
              have hsnotf : pathComps ws ++ pathComps e ∉ fs.files :=
                fun h => hwf.2.2.1 _ h hsd2
              rw [specExpansion_dir hsnotf] at hpe
              obtain ⟨s, hsne, hpeq2, hsmem⟩ := hpe
              have hmir := (hde.2 hsd2).2 s hsne
              rw [hpeq2]
              exact hmir.mpr hsmem
          refine ⟨hp1, ?_⟩
          cases hd : del.contains p with
          | false => rfl
          | true =>
            exfalso
            have hmem := (contains_iff_mem _ _).mp hd
            have hkf := ((hdelc p).mp hmem).2.2
            unfold shouldKeepB at hkf
            rw [(contains_iff_mem copied p).mpr hpc] at hkf
            simp at hkf

/-- Witness for C1: the two-entry configuration with a file entry `a`,
a directory entry `t` holding files `b` and `c`, and a stale file `x`
in the destination, instantiated at the copied path `d/t/b`. -/
theorem sync_spec_witness :
    ([['d'], ['t'], ['b']] ∈
        (FS.mk [[['d'], ['a']], [['s'], ['a']], [['s'], ['t'], ['b']],
                [['s'], ['t'], ['c']], [['d'], ['t'], ['b']], [['d'], ['t'], ['c']]]
               [[['s']], [['d']], [['s'], ['t']], [['d'], ['t']]] []).files ∧
      pathComps "/d" <+: [['d'], ['t'], ['b']] ∧
      [['d'], ['t'], ['b']] ≠ pathComps "/d") ↔
    [['d'], ['t'], ['b']] ∈ specExpansion (pathComps "/s") (pathComps "/d")
      { files := [[['s'], ['a']], [['s'], ['t'], ['b']], [['s'], ['t'], ['c']],
                  [['d'], ['x']]],
        dirs := [[['s']], [['d']], [['s'], ['t']]], unreadable := [] }
      ["a", "t"] :=
  sync_spec
    { windows_base := some "/s", wsl2_base := some "/d", files := ["a", "t"] }
    { files := [[['s'], ['a']], [['s'], ['t'], ['b']], [['s'], ['t'], ['c']],
                [['d'], ['x']]],
      dirs := [[['s']], [['d']], [['s'], ['t']]], unreadable := [] }
    (FS.mk [[['d'], ['a']], [['s'], ['a']], [['s'], ['t'], ['b']],
            [['s'], ['t'], ['c']], [['d'], ['t'], ['b']], [['d'], ['t'], ['c']]]
           [[['s']], [['d']], [['s'], ['t']], [['d'], ['t']]] [])
    "/s" "/d" rfl rfl (by decide) (by decide) (by decide) (by decide) (by decide)
    (by decide) (by decide) rfl [['d'], ['t'], ['b']]
